import Mathlib

/-!
# Verification of the candidate-grid constraint search engine

Shallow embedding of the blue-point generator of this repository:
`generateBluePoints` (search engine, fallback), `refinePoints` / `scoreMaximin`
(`src/utils/bluePoints.js`), the geometry primitives and the candidate grid
builder (`src/utils/geometry.js`, grid code in the room component), and the
constants of `src/utils/constants.js`.

Modelling conventions:
* JavaScript numbers are modelled as exact rationals.  To keep every
  definition kernel-computable the embedding uses its own rational type `Q`
  (an integer numerator with a positive natural denominator, not reduced;
  all operations are plain `Int`/`Nat` arithmetic and comparisons are by
  cross multiplication, so they denote exactly the rational order).
* The only non-rational operation of the source, `Math.sqrt` inside
  `dist3D`, is kept abstract: every definition that scores candidates takes
  a parameter `sq : Q → Q` standing for `fun d => Math.sqrt d` applied to
  the *squared* distance.  Theorems quantify over `sq`, so they hold in
  particular for the real square root.
* Comparisons of the source of the shape `dist3D(a,b) >= M` (with `M > 0`)
  are translated to the equivalent `M² ≤ distSq3D a b`; for the real square
  root these are the same predicate, and they are decidable over `Q`.
* `key01`, i.e. `n.toFixed(1)` on lattice values, is modelled as rounding to
  the nearest multiple of 0.1 (ties towards `+∞`, as `toFixed` and
  `Math.round`), returning the integer `round (10*n) : ℤ`; two keys are
  equal iff the `toFixed(1)` strings are equal (ignoring the JavaScript
  `-0.0` fringe, which no lattice input produces).
* JavaScript `Infinity`, appearing in `minDistToSet` / `scoreMaximin` and in
  the edge-distance minimum, is the `top` constructor of `JQ`; its
  arithmetic (`⊤ * c = ⊤` for `c > 0`, `⊤ + x = ⊤`, `min x ⊤ = x`) agrees
  with IEEE infinity on the values reached here.
* `Array.prototype.sort` (stable since ES2019) with a consistent comparator
  is modelled by a stable insertion sort; for a total preorder comparator
  all stable sorts agree elementwise.
* The `mulberry32` generator is bit-exact over `ℕ` with explicit `% 2^32`;
  its outputs are the exact dyadic rationals `out / 2^32`.
* `Date.now()` is an explicit argument `now`; the monotone call counter is
  the argument `genNonce`, exactly as in the source.
* The fallback path of `generateBluePoints` invokes
  `scoreMaximin(c, chosen)` with the `redAnchors` and `rng` parameters
  missing; in JavaScript `redAnchors()` is then a call of `undefined` and
  throws a `TypeError`.  The embedding returns `Except` and models that
  statement as `.error .typeError`.
-/

/-- An exact rational: integer numerator over a positive natural
denominator, not necessarily reduced.  Models a JavaScript finite number. -/
structure Q where
  num : ℤ
  den : ℕ
  den_pos : 0 < den

namespace Q

theorem ext_qq {a b : Q} (hn : a.num = b.num) (hd : a.den = b.den) : a = b := by
  cases a; cases b; simp_all

instance : DecidableEq Q := fun a b =>
  if h : a.num = b.num ∧ a.den = b.den then isTrue (ext_qq h.1 h.2)
  else isFalse (fun he => h (by cases he; exact ⟨rfl, rfl⟩))

instance : Repr Q := ⟨fun q _ => repr (q.num, q.den)⟩

/-- Build a rational from a numerator and a (positive) denominator literal. -/
def mk' (n : ℤ) (d : ℕ) : Q :=
  if h : 0 < d then ⟨n, d, h⟩ else ⟨n, 1, Nat.one_pos⟩

def ofInt (n : ℤ) : Q := ⟨n, 1, Nat.one_pos⟩

instance (n : ℕ) : OfNat Q n := ⟨ofInt n⟩

instance : Inhabited Q := ⟨0⟩

protected def add (a b : Q) : Q :=
  ⟨a.num * b.den + b.num * a.den, a.den * b.den, Nat.mul_pos a.den_pos b.den_pos⟩

protected def neg (a : Q) : Q := ⟨-a.num, a.den, a.den_pos⟩

protected def sub (a b : Q) : Q :=
  ⟨a.num * b.den - b.num * a.den, a.den * b.den, Nat.mul_pos a.den_pos b.den_pos⟩

protected def mul (a b : Q) : Q :=
  ⟨a.num * b.num, a.den * b.den, Nat.mul_pos a.den_pos b.den_pos⟩

/-- Division; a zero divisor yields `0` (the Lean rational convention — the
source never divides by an exact zero on the inputs considered here). -/
protected def div (a b : Q) : Q :=
  if h : b.num.natAbs = 0 then ⟨0, 1, Nat.one_pos⟩
  else ⟨a.num * b.den * b.num.sign, a.den * b.num.natAbs,
    Nat.mul_pos a.den_pos (Nat.pos_of_ne_zero h)⟩

/-- `Math.abs`. -/
protected def qabs (a : Q) : Q := ⟨|a.num|, a.den, a.den_pos⟩

instance : Add Q := ⟨Q.add⟩
instance : Neg Q := ⟨Q.neg⟩
instance : Sub Q := ⟨Q.sub⟩
instance : Mul Q := ⟨Q.mul⟩
instance : Div Q := ⟨Q.div⟩

/-- The rational order, by cross multiplication (denominators are
positive). -/
protected def le (a b : Q) : Prop := a.num * (b.den : ℤ) ≤ b.num * (a.den : ℤ)

protected def lt (a b : Q) : Prop := a.num * (b.den : ℤ) < b.num * (a.den : ℤ)

instance : LE Q := ⟨Q.le⟩
instance : LT Q := ⟨Q.lt⟩

instance (a b : Q) : Decidable (a ≤ b) := Int.decLe _ _
instance (a b : Q) : Decidable (a < b) := Int.decLt _ _

/-- `Math.min` on finite numbers. -/
protected def qmin (a b : Q) : Q := if a ≤ b then a else b

/-- `Math.max` on finite numbers. -/
protected def qmax (a b : Q) : Q := if a ≤ b then b else a

/-- `Math.floor` (as an integer). -/
protected def floor (a : Q) : ℤ := Int.fdiv a.num a.den

/-- `Math.ceil` (as an integer). -/
protected def ceil (a : Q) : ℤ := -Int.fdiv (-a.num) a.den

/-- The denominator as a positive integer, for order lemmas. -/
theorem denZ_pos (a : Q) : (0 : ℤ) < a.den := Int.natCast_pos.mpr a.den_pos

theorem le_refl_qq (a : Q) : a ≤ a := Int.le_refl _

theorem le_total_qq (a b : Q) : a ≤ b ∨ b ≤ a := by
  rcases Int.le_total (a.num * b.den) (b.num * a.den) with h | h
  · exact Or.inl h
  · exact Or.inr h

theorem not_le_iff_lt {a b : Q} : ¬a ≤ b ↔ b < a := by
  change ¬(a.num * b.den ≤ b.num * a.den) ↔ b.num * a.den < a.num * b.den
  omega

theorem le_trans_qq {a b c : Q} (hab : a ≤ b) (hbc : b ≤ c) : a ≤ c := by
  have h1 : a.num * b.den * c.den ≤ b.num * a.den * c.den :=
    mul_le_mul_of_nonneg_right hab (le_of_lt c.denZ_pos)
  have h2 : b.num * c.den * a.den ≤ c.num * b.den * a.den :=
    mul_le_mul_of_nonneg_right hbc (le_of_lt a.denZ_pos)
  have h3 : a.num * c.den * b.den ≤ c.num * a.den * b.den := by nlinarith
  exact le_of_mul_le_mul_right h3 b.denZ_pos

theorem lt_of_le_of_lt_qq {a b c : Q} (hab : a ≤ b) (hbc : b < c) : a < c := by
  have h1 : a.num * b.den * c.den ≤ b.num * a.den * c.den :=
    mul_le_mul_of_nonneg_right hab (le_of_lt c.denZ_pos)
  have h2 : b.num * c.den * a.den < c.num * b.den * a.den :=
    mul_lt_mul_of_pos_right hbc a.denZ_pos
  have h3 : a.num * c.den * b.den < c.num * a.den * b.den := by nlinarith
  exact lt_of_mul_lt_mul_right h3 (le_of_lt b.denZ_pos)

theorem le_of_lt_qq {a b : Q} (h : a < b) : a ≤ b := Int.le_of_lt h

end Q

/-- A JavaScript number that may be `Infinity`: the score / minimum-distance
domain of `scoreMaximin`. -/
inductive JQ where
  | fin (q : Q)
  | top
deriving DecidableEq, Repr

namespace JQ

instance : Coe Q JQ := ⟨fin⟩

/-- `Math.min` with `Infinity`. -/
def jmin (a b : JQ) : JQ :=
  match a, b with
  | top, b => b
  | a, top => a
  | fin a, fin b => fin (a.qmin b)

/-- Addition (`Infinity` absorbs, as in IEEE for the values reached here). -/
def jadd (a b : JQ) : JQ :=
  match a, b with
  | top, _ => top
  | _, top => top
  | fin a, fin b => fin (a + b)

/-- Multiplication by a positive finite constant (`Infinity * c = Infinity`
for `c > 0`, as in IEEE). -/
def jscale (a : JQ) (c : Q) : JQ :=
  match a with
  | top => top
  | fin a => fin (a * c)

/-- The order, with `Infinity` as the greatest element. -/
def jle (a b : JQ) : Prop :=
  match a, b with
  | _, top => True
  | top, fin _ => False
  | fin a, fin b => a ≤ b

def jlt (a b : JQ) : Prop :=
  match a, b with
  | top, _ => False
  | fin _, top => True
  | fin a, fin b => a < b

instance : LE JQ := ⟨jle⟩
instance : LT JQ := ⟨jlt⟩

instance (a b : JQ) : Decidable (a ≤ b) :=
  match a, b with
  | fin _, top => isTrue trivial
  | top, top => isTrue trivial
  | top, fin _ => isFalse id
  | fin x, fin y => (inferInstance : Decidable (x ≤ y))

instance (a b : JQ) : Decidable (a < b) :=
  match a, b with
  | top, _ => isFalse id
  | fin _, top => isTrue trivial
  | fin x, fin y => (inferInstance : Decidable (x < y))

theorem jle_refl (a : JQ) : a ≤ a := by
  cases a
  · exact Q.le_refl_qq _
  · trivial

theorem jle_trans {a b c : JQ} : a ≤ b → b ≤ c → a ≤ c :=
  match a, b, c with
  | .fin _, .fin _, .fin _ => Q.le_trans_qq
  | .fin _, .fin _, .top => fun _ _ => trivial
  | .fin _, .top, .top => fun _ _ => trivial
  | .top, _, .top => fun _ _ => trivial
  | .top, .fin _, .fin _ => fun hab _ => hab.elim
  | .top, .top, .fin _ => fun _ hbc => hbc.elim
  | .fin _, .top, .fin _ => fun _ hbc => hbc.elim

theorem jlt_of_jle_of_jlt {a b c : JQ} : a ≤ b → b < c → a < c :=
  match a, b, c with
  | .fin _, .fin _, .fin _ => Q.lt_of_le_of_lt_qq
  | .fin _, .fin _, .top => fun _ _ => trivial
  | .fin _, .top, _ => fun _ hbc => hbc.elim
  | .top, .fin _, _ => fun hab _ => hab.elim
  | .top, .top, _ => fun _ hbc => hbc.elim

theorem jnot_lt_iff_le {a b : JQ} : ¬a < b ↔ b ≤ a :=
  match a, b with
  | .fin _, .fin _ => Int.not_lt
  | .top, .top => iff_of_true (fun h => h) trivial
  | .top, .fin _ => iff_of_true (fun h => h) trivial
  | .fin _, .top => iff_of_false (fun h => h trivial) (fun h => h)

end JQ

/-- A 3D point (the JS object `{x, y, z}`). -/
structure Point where
  x : Q
  y : Q
  z : Q
deriving DecidableEq, Repr

instance : Inhabited Point := ⟨⟨0, 0, 0⟩⟩

/-- A 2D polygon vertex (the JS object `{x, y}`). -/
structure Point2 where
  x : Q
  y : Q
deriving DecidableEq, Repr

instance : Inhabited Point2 := ⟨⟨0, 0⟩⟩

/-- `EPS = 1e-9` of `constants.js` / `geometry.js`. -/
def EPS : Q := Q.mk' 1 1000000000

/-- `STEP = 0.1` of `constants.js`. -/
def STEP : Q := Q.mk' 1 10

/-- `MARGIN = 0.5` of `constants.js`. -/
def MARGIN : Q := Q.mk' 1 2

/-- `MIN_RED_BLUE = 1.0` of `constants.js`. -/
def MIN_RED_BLUE : Q := 1

/-- `MIN_BLUE_BLUE = 0.7` of `constants.js`. -/
def MIN_BLUE_BLUE : Q := Q.mk' 7 10

/-- `round01 = (n) => Math.round(n * 10) / 10` (`Math.round x = ⌊x + 1/2⌋`,
ties towards `+∞`). -/
def round01 (n : Q) : Q := Q.mk' ((n * 10 + Q.mk' 1 2).floor) 10

/-- `key01 = (n) => n.toFixed(1)`: the 0.1-rounded coordinate key,
represented by the integer `round (10 * n)` instead of the decimal
string. -/
def key01 (n : Q) : ℤ := (n * 10 + Q.mk' 1 2).floor

/-- The squared 3D Euclidean distance; `dist3D` of `geometry.js` is
`Math.sqrt` of this value. -/
def distSq3D (a b : Point) : Q :=
  (a.x - b.x) * (a.x - b.x) + (a.y - b.y) * (a.y - b.y) + (a.z - b.z) * (a.z - b.z)

/-- `dist3D` of `geometry.js`, with the square root kept abstract as `sq`
applied to the squared distance. -/
def dist3D (sq : Q → Q) (a b : Point) : Q := sq (distSq3D a b)

/-- The translation of the source comparison `dist3D(a,b) >= MIN_RED_BLUE`
(squared form, exact for the real square root). -/
def farRB (a b : Point) : Bool := decide (MIN_RED_BLUE * MIN_RED_BLUE ≤ distSq3D a b)

/-- The translation of the source comparison `dist3D(a,b) >= MIN_BLUE_BLUE`
(squared form, exact for the real square root). -/
def farBB (a b : Point) : Bool := decide (MIN_BLUE_BLUE * MIN_BLUE_BLUE ≤ distSq3D a b)

section Rng

/-- `Math.imul(a, b)` on the unsigned 32-bit representatives. -/
def imul32 (a b : Nat) : Nat := (a * b) % 2 ^ 32

/-- One step of `mulberry32` (`geometry.js`): from the incremented internal
state `t` to the 32-bit output.  All JS bit operations coerce to 32 bits, so
the whole computation is carried out on representatives `< 2^32`. -/
def mb32out (t : Nat) : Nat :=
  let r := imul32 (Nat.xor t (t >>> 15)) (t ||| 1)
  let r := Nat.xor r ((r + imul32 (Nat.xor r (r >>> 7)) (r ||| 61)) % 2 ^ 32)
  Nat.xor r (r >>> 14)

/-- One call of the closure returned by `mulberry32`: bump the state by
`0x6d2b79f5`, return the raw 32-bit output together with the new state. -/
def mbNext (t : Nat) : Nat × Nat :=
  let t := (t + 0x6d2b79f5) % 2 ^ 32
  (mb32out t, t)

/-- One call of the generator as an exact rational in `[0,1)`:
`out / 4294967296`. -/
def randQ (t : Nat) : Q × Nat :=
  let p := mbNext t
  (Q.mk' p.1 4294967296, p.2)

end Rng

section ListHelpers

/-- Stable insertion of `a` into `l`, where `le a b` means "`a` may come
before `b`".  Used to model JavaScript's stable `Array.prototype.sort`. -/
def sortInsert (le : α → α → Bool) (a : α) : List α → List α
  | [] => [a]
  | b :: bs => if le a b then a :: b :: bs else b :: sortInsert le a bs

/-- Stable sort modelling `Array.prototype.sort` with a consistent
comparator: for a total preorder every stable sort produces the same list. -/
def stableSort (le : α → α → Bool) : List α → List α
  | [] => []
  | a :: as => sortInsert le a (stableSort le as)

/-- State-threaded map, modelling a JS `.map` whose callback advances the
shared `mulberry32` closure: elements are visited in array order. -/
def mapRng (f : α → Nat → β × Nat) : List α → Nat → List β × Nat
  | [], t => ([], t)
  | a :: as, t =>
    let (b, t) := f a t
    let (bs, t) := mapRng f as t
    (b :: bs, t)

/-- `[...arr.slice(rot), ...arr.slice(0, rot)]`. -/
def rotateList (l : List α) (rot : Nat) : List α := l.drop rot ++ l.take rot

/-- Swap of two positions of a list (the JS destructuring swap of
`shuffle`); out-of-range positions are left untouched by `List.set`. -/
def swapIdx [Inhabited α] (l : List α) (i j : Nat) : List α :=
  (l.set i (l.getD j default)).set j (l.getD i default)

/-- The Fisher-Yates loop of `shuffle` (`geometry.js`), iterating the JS
index from `a.length - 1` down to `1`; the `Nat` argument is the current
index. -/
def shuffleGo [Inhabited α] (l : List α) (t : Nat) : Nat → List α × Nat
  | 0 => (l, t)
  | i + 1 =>
    let (r, t) := randQ t
    let j := ((r * Q.ofInt ((i : ℤ) + 2)).floor).toNat
    shuffleGo (swapIdx l (i + 1) j) t i

/-- `shuffle(arr, rng)` of `geometry.js`. -/
def shuffle [Inhabited α] (l : List α) (t : Nat) : List α × Nat :=
  shuffleGo l t (l.length - 1)

end ListHelpers

section Geometry

/-- Ray-casting inner step of `pointInPolygon` (`geometry.js`): whether edge
`(poly[j], poly[i])` toggles the parity for `pt`. -/
def rayHit (pt : Point2) (pj pi : Point2) : Bool :=
  (decide (pt.y < pi.y) != decide (pt.y < pj.y)) &&
    decide (pt.x < (pj.x - pi.x) * (pt.y - pi.y) / ((pj.y - pi.y) + EPS) + pi.x)

/-- `pointInPolygon(pt, poly)` of `geometry.js`: for index `i` the partner
index `j` is `len - 1` for `i = 0` and `i - 1` otherwise. -/
def pointInPolygon (pt : Point2) (poly : List Point2) : Bool :=
  (List.range poly.length).foldl
    (fun inside i =>
      let j := if i = 0 then poly.length - 1 else i - 1
      if rayHit pt (poly.getD j default) (poly.getD i default) then !inside else inside)
    false

/-- Squared form of `distPointToSegment2D` (`geometry.js`); the branch
conditions of the source are square-root free and are kept verbatim. -/
def distSqPointToSegment2D (p a b : Point2) : Q :=
  let vx := b.x - a.x
  let vy := b.y - a.y
  let wx := p.x - a.x
  let wy := p.y - a.y
  let c1 := vx * wx + vy * wy
  if c1 ≤ 0 then (p.x - a.x) * (p.x - a.x) + (p.y - a.y) * (p.y - a.y)
  else
    let c2 := vx * vx + vy * vy
    if c2 ≤ EPS then (p.x - a.x) * (p.x - a.x) + (p.y - a.y) * (p.y - a.y)
    else if c2 ≤ c1 then (p.x - b.x) * (p.x - b.x) + (p.y - b.y) * (p.y - b.y)
    else
      let t := c1 / c2
      let projx := a.x + t * vx
      let projy := a.y + t * vy
      (p.x - projx) * (p.x - projx) + (p.y - projy) * (p.y - projy)

/-- Squared form of `minDistToEdges2D` (`geometry.js`): minimum of the
squared distances to the edges `(poly[i], poly[(i+1) % len])`, starting from
`Infinity`. -/
def minDistSqToEdges2D (p : Point2) (poly : List Point2) : JQ :=
  (List.range poly.length).foldl
    (fun md i =>
      md.jmin (.fin (distSqPointToSegment2D p (poly.getD i default)
        (poly.getD ((i + 1) % poly.length) default))))
    .top

/-- The axis loop of the grid builder
(`for (let x = start; x <= stop; x += STEP) xs.push(round01(x))` with exact
rationals): `start + k * STEP` for `k = 0, ..., ⌊(stop - start)/STEP⌋`. -/
def axisValues (start stop : Q) : List Q :=
  if start ≤ stop then
    (List.range (((stop - start) / STEP).floor.toNat + 1)).map
      (fun k => round01 (start + Q.ofInt k * STEP))
  else []

/-- `Math.ceil(q * 10) / 10`. -/
def ceil01 (q : Q) : Q := Q.mk' (q * 10).ceil 10

/-- `Math.min(...l)` for a non-empty list (the polygon always has vertices);
`Math.min()` of an empty spread would be `Infinity`, never reached here. -/
def listMin (l : List Q) : Q :=
  match l with
  | [] => 0
  | a :: as => as.foldl Q.qmin a

/-- `Math.max(...l)` for a non-empty list. -/
def listMax (l : List Q) : Q :=
  match l with
  | [] => 0
  | a :: as => as.foldl Q.qmax a

/-- The unfiltered XY lattice of the grid builder (the room component):
all `(x, y)` pairs of the two axis loops, in loop order. -/
def xyCellsRaw (vertices : List Point2) : List Point2 :=
  let bxmin := listMin (vertices.map (·.x))
  let bxmax := listMax (vertices.map (·.x))
  let bymin := listMin (vertices.map (·.y))
  let bymax := listMax (vertices.map (·.y))
  let xs := axisValues (ceil01 (bxmin + MARGIN)) (bxmax - MARGIN + EPS)
  let ys := axisValues (ceil01 (bymin + MARGIN)) (bymax - MARGIN + EPS)
  xs.flatMap (fun x => ys.map (fun y => Point2.mk x y))

/-- `xyCells` of the room component: the raw lattice filtered by polygon
containment and by the squared-form edge-margin test
`minDistToEdges2D(p, vertices) < MARGIN - EPS`. -/
def xyCells (vertices : List Point2) : List Point2 :=
  (xyCellsRaw vertices).filter
    (fun p => pointInPolygon p vertices &&
      !(decide (minDistSqToEdges2D p vertices < .fin ((MARGIN - EPS) * (MARGIN - EPS)))))

/-- `zLevels` of the room component: `Math.ceil(MARGIN*10)/10` up to
`alturaZ - MARGIN` (epsilon-tolerant), step 0.1. -/
def zLevels (alturaZ : Q) : List Q :=
  axisValues (ceil01 MARGIN) (alturaZ - MARGIN + EPS)

/-- `candidates` of the room component: the cross product of the XY cells
and the Z levels, in loop order. -/
def candidatesOf (vertices : List Point2) (alturaZ : Q) : List Point :=
  (xyCells vertices).flatMap (fun p => (zLevels alturaZ).map (fun z => Point.mk p.x p.y z))

end Geometry

section Score

/-- `minDistToSet(p, set)` of `bluePoints.js`:
`set.reduce((m, q) => Math.min(m, dist3D(p, q)), Infinity)`. -/
def minDistToSet (sq : Q → Q) (p : Point) (set : List Point) : JQ :=
  set.foldl (fun m q => m.jmin (.fin (dist3D sq p q))) .top

/-- `Math.min(...l.map(f))` for non-empty `l`. -/
def listMinBy (f : α → Q) (l : List α) : Q := listMin (l.map f)

/-- `scoreMaximin(cand, chosen, redAnchors, rng)` of `bluePoints.js`.
The pseudo-random closure is threaded explicitly; the call consumes exactly
one draw (`rng() * 0.05`).  `Infinity` is `JQ.top`, and the summand
`Number.isFinite(dR) ? dR : 0` is the `match` on `dR`; the additions are
performed in source order (left associated). -/
def scoreMaximin (sq : Q → Q) (cand : Point) (chosen redAnchors : List Point)
    (t : Nat) : JQ × Nat :=
  let anchors := redAnchors ++ chosen
  let dA := minDistToSet sq cand anchors
  let dB : JQ := if chosen.isEmpty then dA
    else .fin (listMinBy (dist3D sq cand) chosen)
  let dR : JQ := if redAnchors.isEmpty then .top
    else .fin (listMinBy (dist3D sq cand) redAnchors)
  let (j, t) := randQ t
  ((((dB.jmin dR).jscale 10).jadd (dB.jscale 2)).jadd
      (match dR with | .top => .fin 0 | .fin x => .fin x) |>.jadd
      (.fin (j * Q.mk' 5 100)),
    t)

end Score

section SearchEngine

/-- Read-only context of one `generateBluePoints` invocation: the abstract
square root, the `byZ` index (`Map.get(zk) || []` as a total function), the
`redAnchors()` list (pure, so computed once) and the per-slot Z preference
lists. -/
structure SearchCtx where
  sq : Q → Q
  byZ : ℤ → List Point
  redAnchors : List Point
  zOptionsByIdx : List (List Q)

/-- Mutable state shared by the whole search: the node counter, the solution
pool and the `mulberry32` state. -/
structure SearchSt where
  nodes : Nat
  solutions : List (List Point)
  rng : Nat
deriving Repr

/-- `MAX_NODES = 60000` of `generateBluePoints`. -/
def MAX_NODES : Nat := 60000

/-- `TOPC = 22`. -/
def TOPC : Nat := 22

/-- `TOPZ = 18`. -/
def TOPZ : Nat := 18

/-- `MAX_SOL = 20`. -/
def MAX_SOL : Nat := 20

/-- The `dfs(i, chosen, usedX, usedY, usedZ)` function of
`generateBluePoints`, structurally recursive on the termination token
`fuel`: the initial call passes `6` and the depth is bounded by `i = 5`, so
the `0` branch is never reached.  The two source `for` loops with early
`return true` are folds whose accumulator carries the `found` flag: once it
is set the remaining iterations pass the state through untouched, which
yields the same value as the JavaScript `return`.  The guard
`nodes++ > MAX_NODES` compares the counter before incrementing.  (If the
hook-supplied `zOptionsByIdx` has fewer than 5 rows, `getD` yields `[]`
where JavaScript would throw; on both sides no solution is ever
produced.) -/
def dfs (ctx : SearchCtx) : Nat → Nat → List Point → List ℤ → List ℤ → List ℤ →
    SearchSt → Bool × SearchSt
  | 0, _, _, _, _, _, st => (false, st)
  | fuel + 1, i, chosen, usedX, usedY, usedZ, st =>
    let n0 := st.nodes
    let st := { st with nodes := n0 + 1 }
    if MAX_NODES < n0 then (false, st)
    else if i = 5 then
      let st := { st with solutions := st.solutions ++ [chosen] }
      (decide (MAX_SOL ≤ st.solutions.length), st)
    else
      let zOpt := ctx.zOptionsByIdx.getD i []
      let zList := zOpt.take (min TOPZ zOpt.length)
      zList.foldl
        (fun acc z =>
          if acc.1 then acc
          else
            let st := acc.2
            let zk := key01 z
            if usedZ.contains zk then (false, st)
            else
              let pool := (ctx.byZ zk).filter
                (fun c => !usedX.contains (key01 c.x) && !usedY.contains (key01 c.y))
              if pool.isEmpty then (false, st)
              else
                let poolOk := pool.filter
                  (fun c => ctx.redAnchors.all (fun r => farRB c r) &&
                    chosen.all (fun q => farBB c q))
                if poolOk.isEmpty then (false, st)
                else
                  let (scored, t) := mapRng
                    (fun c t =>
                      let (s, t) := scoreMaximin ctx.sq c chosen ctx.redAnchors t
                      let (j, t) := randQ t
                      ((c, s.jadd (.fin (j * Q.mk' 2 100))), t))
                    poolOk st.rng
                  let st := { st with rng := t }
                  let ranked := (stableSort (fun a b => decide (b.2 ≤ a.2)) scored).take
                    (min TOPC poolOk.length)
                  (ranked.map (·.1)).foldl
                    (fun acc2 c =>
                      if acc2.1 then acc2
                      else
                        dfs ctx fuel (i + 1) (chosen ++ [c]) (key01 c.x :: usedX)
                          (key01 c.y :: usedY) (zk :: usedZ) acc2.2)
                    (false, st))
        (false, st)

end SearchEngine

section Refinement

/-- The `for (const p of pool)` loop of `refinePoints`: keep the best-scoring
candidate so far; replace only on a strict improvement (`sc > score`). -/
def bestLoop (sq : Q → Q) (others anchors : List Point) :
    List Point → Point × JQ × Nat → Point × JQ × Nat
  | [], acc => acc
  | p :: ps, (cand, score, t) =>
    let (sc, t) := scoreMaximin sq p others anchors t
    if score < sc then bestLoop sq others anchors ps (p, sc, t)
    else bestLoop sq others anchors ps (cand, score, t)

/-- The validity filter of `refinePoints` for index `i`: same-Z candidates
that differ from the current point, avoid the X/Y keys of the other points
and of the anchors, and satisfy both distance constraints against the
anchors and the other points. -/
def refinePool (byZ : ℤ → List Point) (anchors best : List Point) (i : Nat) :
    List Point :=
  let bi := best.getD i default
  (byZ (key01 bi.z)).filter (fun c =>
    let cx := key01 c.x
    let cy := key01 c.y
    !(cx == key01 bi.x && cy == key01 bi.y) &&
    !(best.enum.any (fun kq => kq.1 ≠ i && (key01 kq.2.x == cx || key01 kq.2.y == cy))) &&
    !(anchors.any (fun r => key01 r.x == cx || key01 r.y == cy)) &&
    anchors.all (fun r => farRB c r) &&
    best.enum.all (fun kq => kq.1 == i || farBB c kq.2))

/-- The body of the inner `for (let i = 0; ...)` loop of `refinePoints`:
build the validity-filtered same-Z pool, score the current point, fold the
pool for a strictly better candidate, and write the winner back at `i`. -/
def refineStep (sq : Q → Q) (byZ : ℤ → List Point) (anchors : List Point)
    (best : List Point) (i : Nat) (t : Nat) : List Point × Nat :=
  let bi := best.getD i default
  let pool := refinePool byZ anchors best i
  let others := best.eraseIdx i
  let (s0, t) := scoreMaximin sq bi others anchors t
  let (cand, _, t) := bestLoop sq others anchors pool (bi, s0, t)
  (best.set i cand, t)

/-- One pass of `refinePoints`: the inner loop over all indices, threading
the updated list (later indices see earlier replacements). -/
def refinePass (sq : Q → Q) (byZ : ℤ → List Point) (anchors : List Point) :
    List Nat → List Point × Nat → List Point × Nat
  | [], s => s
  | i :: is, (best, t) =>
    refinePass sq byZ anchors is (refineStep sq byZ anchors best i t)

/-- `refinePoints(pts, byZ, redAnchors, rng)` of `bluePoints.js`: exactly two
passes over all indices (`List.set` keeps the length constant, so the index
range of the second pass equals the first). -/
def refinePoints (sq : Q → Q) (byZ : ℤ → List Point) (anchors : List Point)
    (pts : List Point) (t : Nat) : List Point × Nat :=
  let s := refinePass sq byZ anchors (List.range pts.length) (pts, t)
  refinePass sq byZ anchors (List.range pts.length) s

end Refinement

section Fallback

/-- The observable failures of a `generateBluePoints` call.  `typeError` is
the JavaScript `TypeError` raised by the fallback's
`scoreMaximin(c, chosen)`, whose missing `redAnchors` argument is called as
a function inside `scoreMaximin`. -/
inductive GenError where
  | typeError
deriving DecidableEq, Repr

/-- The four relaxation levels of the fallback degrader, rebuilt at every
slot from the current committed keys and chosen points. -/
def fallbackLevels (anchors0 chosen : List Point) (usedX usedY usedZ : List ℤ) :
    List (Point → Bool) :=
  [ fun c => !usedX.contains (key01 c.x) && !usedY.contains (key01 c.y) &&
      !usedZ.contains (key01 c.z) && anchors0.all (fun r => farRB c r) &&
      chosen.all (fun q => farBB c q),
    fun c => !usedX.contains (key01 c.x) && !usedY.contains (key01 c.y) &&
      !usedZ.contains (key01 c.z) && anchors0.all (fun r => farRB c r),
    fun c => !usedX.contains (key01 c.x) && !usedY.contains (key01 c.y) &&
      !usedZ.contains (key01 c.z),
    fun _ => true ]

/-- The `for (const ok of levels)` loop: at the first level whose filter is
non-empty the source maps `scoreMaximin(c, chosen)` over it — a call with
`redAnchors = undefined` that throws.  All-empty levels leave `picked`
null. -/
def levelLoop (all : List Point) : List (Point → Bool) → Except GenError Unit
  | [] => .ok ()
  | ok :: rest =>
    if (all.filter ok).isEmpty then levelLoop all rest else .error .typeError

/-- The `for (let k = 0; k < 5; k++)` loop of the fallback degrader. -/
def fallbackLoop (anchors0 all : List Point) :
    Nat → List Point × List ℤ × List ℤ × List ℤ × Nat →
    Except GenError (List Point × List ℤ × List ℤ × List ℤ × Nat)
  | 0, s => .ok s
  | k + 1, (chosen, ux, uy, uz, t) =>
    match levelLoop all (fallbackLevels anchors0 chosen ux uy uz) with
    | .error e => .error e
    | .ok _ => fallbackLoop anchors0 all k (chosen, ux, uy, uz, t)

/-- The `while (chosen.length < 5 && candidates.length)` padding loop.  Each
iteration appends one uniformly drawn candidate, so 5 iterations of fuel
always suffice. -/
def padLoop (candidates : List Point) : Nat → List Point → Nat → List Point × Nat
  | 0, chosen, t => (chosen, t)
  | n + 1, chosen, t =>
    if chosen.length < 5 && !candidates.isEmpty then
      let (r, t) := randQ t
      let extra := candidates.getD ((r * Q.ofInt candidates.length).floor).toNat default
      padLoop candidates n (chosen ++ [extra]) t
    else (chosen, t)

end Fallback

section Generator

/-- The inputs of `generateBluePoints` other than the seed and the wall
clock.  `byZ` is the `Map` as a total function (`byZ.get(zk) || []`), and
`zOptionsByIdx` is the optional hook-precomputed Z preference table
(`precomputedZOptions`, default `null`). -/
structure GenArgs where
  F1 : Point
  F2 : Point
  candidates : List Point
  genNonce : Nat
  f1Active : Bool := true
  f2Active : Bool := true
  byZ : ℤ → List Point
  zLevelsAll : List Q
  zOptionsByIdx : Option (List (List Q)) := none

/-- The output object `{ points, feasible }`. -/
structure GenResult where
  points : List Point
  feasible : Bool
deriving DecidableEq, Repr

/-- JavaScript truthiness of the `seed` argument: `null` and the empty
string are falsy, every other string is truthy. -/
def seedTruthy : Option (List Nat) → Bool
  | none => false
  | some l => !l.isEmpty

/-- `Array.from(seed).reduce((a, c) => a + c.charCodeAt(0), 0)`: the summed
character codes of the seed string. -/
def sumCodes : Option (List Nat) → Nat
  | none => 0
  | some l => l.foldl (fun a c => a + c) 0

/-- The argument of `mulberry32`: the summed character codes when the seed
is truthy, otherwise `(Date.now() ^ (genNonce * 0x9e3779b9)) >>> 0` (all
32-bit coercions made explicit). -/
def computeSeed (seedOn : Bool) (userSeed now genNonce : Nat) : Nat :=
  if seedOn then userSeed % 2 ^ 32
  else Nat.xor (now % 2 ^ 32) ((genNonce * 0x9e3779b9) % 2 ^ 32)

/-- The computation of `zOptionsByIdx` when no precomputed table is given:
for each target height `dz` of `[1.0, 1.1, 1.2, 1.3, 1.4].map(round01)`,
sort all Z levels by `|z - dz| + rng() * 0.001` (ascending, stable) and,
when unseeded and non-empty, rotate by `Math.floor(rng() * arr.length)`. -/
def zOptionsCompute (seedOn : Bool) (zLevelsAll : List Q) (t : Nat) :
    List (List Q) × Nat :=
  mapRng
    (fun dz t =>
      let (keyed, t) := mapRng
        (fun z t =>
          let (r, t) := randQ t
          ((z, (z - dz).qabs + r * Q.mk' 1 1000), t))
        zLevelsAll t
      let arr := (stableSort (fun a b => decide (a.2 ≤ b.2)) keyed).map (·.1)
      if !seedOn && !arr.isEmpty then
        let (r, t) := randQ t
        let rot := ((r * Q.ofInt arr.length).floor).toNat
        (rotateList arr rot, t)
      else (arr, t))
    ([1, Q.mk' 11 10, Q.mk' 12 10, Q.mk' 13 10, Q.mk' 14 10].map round01) t

/-- `redAnchors()`: the active anchors, `F1` first. -/
def activeAnchors (args : GenArgs) : List Point :=
  (if args.f1Active then [args.F1] else []) ++ (if args.f2Active then [args.F2] else [])

/-- The initial committed X keys (`usedX0`): the X keys of the active
anchors. -/
def usedX0 (args : GenArgs) : List ℤ :=
  (if args.f1Active then [key01 args.F1.x] else []) ++
    (if args.f2Active then [key01 args.F2.x] else [])

/-- The initial committed Y keys (`usedY0`). -/
def usedY0 (args : GenArgs) : List ℤ :=
  (if args.f1Active then [key01 args.F1.y] else []) ++
    (if args.f2Active then [key01 args.F2.y] else [])

/-- Everything of `generateBluePoints` after the `mulberry32` seed has been
fixed: Z preference table, search, solution pick plus refinement, or the
fallback degrader.  `seedOn` is the truthiness of the seed (used by the
rotation branch and by the pool index), `t0` the initial generator
state. -/
def generateRest (sq : Q → Q) (args : GenArgs) (seedOn : Bool) (t0 : Nat) :
    Except GenError GenResult :=
  let zo := match args.zOptionsByIdx with
    | some zs => (zs, t0)
    | none => zOptionsCompute seedOn args.zLevelsAll t0
  let anchors := activeAnchors args
  let ctx : SearchCtx := ⟨sq, args.byZ, anchors, zo.1⟩
  let st0 : SearchSt := ⟨0, [], zo.2⟩
  let st := (dfs ctx 6 0 [] (usedX0 args) (usedY0 args) [] st0).2
  if st.solutions.isEmpty then
    let (all, t) := shuffle args.candidates st.rng
    match fallbackLoop anchors all 5 ([], usedX0 args, usedY0 args, [], t) with
    | .error e => .error e
    | .ok (chosen, _, _, _, t) =>
      let (chosen, _) := padLoop args.candidates 5 chosen t
      .ok ⟨chosen.take 5, false⟩
  else
    let idx := if seedOn then 0 else args.genNonce % st.solutions.length
    let pick := st.solutions.getD idx []
    let (pick, _) := refinePoints sq args.byZ anchors pick st.rng
    .ok ⟨pick, true⟩

/-- `generateBluePoints` of the blue-point hook module.  `sq` abstracts
`Math.sqrt` composed with the squared distance, `now` is `Date.now()`,
`seed` the optional seed string as its character-code list. -/
def generateBluePoints (sq : Q → Q) (now : Nat) (seed : Option (List Nat))
    (args : GenArgs) : Except GenError GenResult :=
  if args.candidates.isEmpty then .ok ⟨[], false⟩
  else
    generateRest sq args (seedTruthy seed)
      (computeSeed (seedTruthy seed) (sumCodes seed) now args.genNonce)

end Generator

section ConcreteInputs

/-- A concrete instantiation of the abstract square root used to evaluate
witnesses and counterexamples; every claim theorem is quantified over all
`sq`, so any instantiation is admissible there. -/
def sqLin : Q → Q := fun q => q

/-- Concrete candidate 1 of the five-candidate feasible scenario. -/
def bp1 : Point := ⟨1, 1, 1⟩

/-- Concrete candidate 2. -/
def bp2 : Point := ⟨2, 2, Q.mk' 11 10⟩

/-- Concrete candidate 3. -/
def bp3 : Point := ⟨3, 3, Q.mk' 12 10⟩

/-- Concrete candidate 4. -/
def bp4 : Point := ⟨4, 4, Q.mk' 13 10⟩

/-- Concrete candidate 5. -/
def bp5 : Point := ⟨5, 5, Q.mk' 14 10⟩

/-- The five candidates: mutually far apart, one per Z level. -/
def candFive : List Point := [bp1, bp2, bp3, bp4, bp5]

/-- The Z index of `candFive`, keyed by `key01` of the Z coordinate. -/
def byZFive : ℤ → List Point := fun zk =>
  if zk = 10 then [bp1] else if zk = 11 then [bp2] else if zk = 12 then [bp3]
  else if zk = 13 then [bp4] else if zk = 14 then [bp5] else []

/-- A feasible scenario: two distinct active anchors, five far-apart
candidates on five Z levels. -/
def argsSep : GenArgs := {
  F1 := ⟨0, 0, 0⟩, F2 := ⟨Q.mk' 1 2, Q.mk' 1 2, 0⟩,
  candidates := candFive, genNonce := 7,
  byZ := byZFive,
  zLevelsAll := [1, Q.mk' 11 10, Q.mk' 12 10, Q.mk' 13 10, Q.mk' 14 10] }

/-- The same scenario with both anchors at the same position (so the two
active anchors share their X key and their Y key). -/
def argsDup : GenArgs := { argsSep with F2 := ⟨0, 0, 0⟩ }

/-- A one-candidate scenario: the search cannot fill 5 slots, so the
fallback degrader is reached. -/
def argsOne : GenArgs := {
  F1 := ⟨0, 0, 0⟩, F2 := ⟨Q.mk' 1 2, Q.mk' 1 2, 0⟩,
  candidates := [bp1], genNonce := 7,
  byZ := fun zk => if zk = 10 then [bp1] else [], zLevelsAll := [1] }

/-- An empty-candidates scenario. -/
def argsNil : GenArgs := {
  F1 := ⟨0, 0, 0⟩, F2 := ⟨Q.mk' 1 2, Q.mk' 1 2, 0⟩,
  candidates := [], genNonce := 7,
  byZ := fun _ => [], zLevelsAll := [] }

/-- The §8 scenario room: rectangle `(0,0),(3,0),(3,2),(0,2)`. -/
def rectRoom : List Point2 := [⟨0, 0⟩, ⟨3, 0⟩, ⟨3, 2⟩, ⟨0, 2⟩]

end ConcreteInputs

deriving instance DecidableEq for Except

/-- C6: an empty candidate list yields the empty infeasible result at once —
the search, the refinement pass and the fallback are behind the non-empty
branch and are not invoked. -/
theorem c6_empty_candidates (sq : Q → Q) (now : Nat) (seed : Option (List Nat))
    (args : GenArgs) (h : args.candidates = []) :
    generateBluePoints sq now seed args = .ok ⟨[], false⟩ := by
  simp [generateBluePoints, h]

/-- Witness for C6 at a concrete empty-candidate input. -/
theorem c6_empty_candidates_witness :
    generateBluePoints sqLin 0 none argsNil = .ok ⟨[], false⟩ :=
  c6_empty_candidates sqLin 0 none argsNil rfl

/-- C5 (code bug): on a non-empty candidate list whose search finds no
5-point solution, the fallback degrader is reached and the source throws a
`TypeError` — `scoreMaximin(c, chosen)` is invoked without its `redAnchors`
and `rng` arguments and `redAnchors()` is a call of `undefined` — instead of
returning 5 points with `feasible=false`. -/
theorem c5_fallback_throws :
    generateBluePoints sqLin 0 (some [97]) argsOne = .error .typeError := by decide

/-- C4 (code bug): the budget guard `nodes++ > MAX_NODES` still expands the
node whose pre-increment counter equals `MAX_NODES = 60000`, so a 60,001st
expansion is possible; only from counter 60,001 onwards is the call cut
off.  Exhibited on a leaf invocation (`i = 5`): at counter 60,000 the
solution is still recorded, at 60,001 it no longer is. -/
theorem c4_guard_off_by_one :
    ((dfs ⟨sqLin, byZFive, [], [[1]]⟩ 1 5 [bp1] [] [] [] ⟨60000, [], 0⟩).2.solutions = [[bp1]]) ∧
    ((dfs ⟨sqLin, byZFive, [], [[1]]⟩ 1 5 [bp1] [] [] [] ⟨60001, [], 0⟩).2.solutions = []) := by
  decide

/-- C3 (counterexample): with the non-null seed `""` (the empty string is
falsy in JavaScript) the generator takes the unseeded path and the result
depends on the wall clock: two invocations at `Date.now()` values 0 and 1
return different point sequences. -/
theorem c3_counterexample :
    (some ([] : List Nat) ≠ none) ∧
    generateBluePoints sqLin 0 (some []) argsSep ≠
      generateBluePoints sqLin 1 (some []) argsSep := by
  constructor
  · decide
  · decide

/-- C3 (amended): for a fixed truthy (non-null, non-empty) seed string and
fixed remaining inputs, the result does not depend on the wall clock, hence
two invocations return identical results. -/
theorem c3_determinism (sq : Q → Q) (now₁ now₂ : Nat) (seed : Option (List Nat))
    (args : GenArgs) (h : seedTruthy seed = true) :
    generateBluePoints sq now₁ seed args = generateBluePoints sq now₂ seed args := by
  unfold generateBluePoints computeSeed
  rw [h]
  simp

/-- Witness for the amended C3 at the concrete seed `"a"`. -/
theorem c3_determinism_witness :
    generateBluePoints sqLin 5 (some [97]) argsSep =
      generateBluePoints sqLin 99 (some [97]) argsSep :=
  c3_determinism sqLin 5 99 (some [97]) argsSep rfl

/-- C10 (counterexample): the empty string and `"\x00"` have the same
character-code sum 0, but the empty string is falsy: the first invocation is
unseeded (wall-clock dependent) while the second is seeded with 0, and at
`Date.now() = 12345` the two results differ. -/
theorem c10_counterexample :
    sumCodes (some []) = sumCodes (some [0]) ∧
    generateBluePoints sqLin 12345 (some []) argsSep ≠
      generateBluePoints sqLin 12345 (some [0]) argsSep := by
  constructor
  · rfl
  · decide

/-- C10 (amended): for two truthy (non-empty) seed strings with equal
character-code sums and identical remaining inputs, the results are
identical — the seed enters the computation only through its truthiness and
its character-code sum. -/
theorem c10_seed_sum (sq : Q → Q) (now : Nat) (s₁ s₂ : List Nat) (args : GenArgs)
    (h₁ : s₁ ≠ []) (h₂ : s₂ ≠ [])
    (hsum : sumCodes (some s₁) = sumCodes (some s₂)) :
    generateBluePoints sq now (some s₁) args =
      generateBluePoints sq now (some s₂) args := by
  have ht₁ : seedTruthy (some s₁) = true := by
    simp [seedTruthy, List.isEmpty_iff, h₁]
  have ht₂ : seedTruthy (some s₂) = true := by
    simp [seedTruthy, List.isEmpty_iff, h₂]
  unfold generateBluePoints
  rw [ht₁, ht₂, hsum]

/-- Witness for the amended C10: the seeds `"ab"` and `"ba"` produce the
same result. -/
theorem c10_seed_sum_witness :
    generateBluePoints sqLin 0 (some [97, 98]) argsSep =
      generateBluePoints sqLin 0 (some [98, 97]) argsSep :=
  c10_seed_sum sqLin 0 [97, 98] [98, 97] argsSep (by decide) (by decide) rfl

/-- The number of candidates is the product of the XY cell count and the Z
level count: the builder takes the cross product. -/
theorem candidatesOf_length (vertices : List Point2) (alturaZ : Q) :
    (candidatesOf vertices alturaZ).length =
      (xyCells vertices).length * (zLevels alturaZ).length := by
  unfold candidatesOf
  induction xyCells vertices with
  | nil => simp
  | cons p ps ih => simp [ih, Nat.succ_mul, Nat.add_comm]

/-- C8: for the rectangular room `(0,0),(3,0),(3,2),(0,2)` with height 2.5,
margin 0.5 and step 0.1, the grid builder produces exactly `231 = 21 * 11`
XY cells, all of which pass the polygon-containment and edge-margin filters
(the filtered list equals the raw lattice), exactly the 16 Z levels
0.5, 0.6, …, 2.0, and hence `231 * 16 = 3696` candidates. -/
theorem c8_grid_counts :
    (xyCellsRaw rectRoom).length = 21 * 11 ∧
    xyCells rectRoom = xyCellsRaw rectRoom ∧
    zLevels (Q.mk' 5 2) =
      [Q.mk' 5 10, Q.mk' 6 10, Q.mk' 7 10, Q.mk' 8 10, Q.mk' 9 10, Q.mk' 10 10,
       Q.mk' 11 10, Q.mk' 12 10, Q.mk' 13 10, Q.mk' 14 10, Q.mk' 15 10,
       Q.mk' 16 10, Q.mk' 17 10, Q.mk' 18 10, Q.mk' 19 10, Q.mk' 20 10] ∧
    (zLevels (Q.mk' 5 2)).length = 16 ∧
    (candidatesOf rectRoom (Q.mk' 5 2)).length = 3696 := by
  set_option maxRecDepth 4000 in
  refine ⟨by decide, by decide, by decide, by decide, ?_⟩
  rw [candidatesOf_length]
  have h1 : (xyCells rectRoom).length = 231 := by
    set_option maxRecDepth 4000 in decide
  have h2 : (zLevels (Q.mk' 5 2)).length = 16 := by decide
  rw [h1, h2]

section ScoreFormula

theorem Q.lt_irrefl_qq (a : Q) : ¬a < a := Int.lt_irrefl _

/-- Associativity of the binary `Math.min` (structurally, ties keep the
leftmost representative on both sides). -/
theorem Q.qmin_assoc (a b c : Q) : (a.qmin b).qmin c = a.qmin (b.qmin c) := by
  unfold Q.qmin
  by_cases hab : a ≤ b
  · by_cases hbc : b ≤ c
    · rw [if_pos hab, if_pos hbc, if_pos hab, if_pos (Q.le_trans_qq hab hbc)]
    · rw [if_pos hab, if_neg hbc]
  · by_cases hbc : b ≤ c
    · rw [if_neg hab, if_pos hbc, if_neg hab]
    · rw [if_neg hab, if_neg hbc]
      have hca : c < a :=
        Q.lt_of_le_of_lt_qq (Q.le_of_lt_qq (Q.not_le_iff_lt.mp hbc))
          (Q.not_le_iff_lt.mp hab)
      rw [if_neg (fun hac : a ≤ c =>
        Q.lt_irrefl_qq a (Q.lt_of_le_of_lt_qq hac hca))]

/-- Associativity of `Math.min` with `Infinity`. -/
theorem JQ.jmin_assoc (a b c : JQ) : (a.jmin b).jmin c = a.jmin (b.jmin c) := by
  cases a <;> cases b <;> cases c <;> simp [JQ.jmin, Q.qmin_assoc]

/-- `Math.min(a, Infinity) = a`. -/
theorem JQ.jmin_top (a : JQ) : a.jmin .top = a := by cases a <;> rfl

/-- `Math.min(Infinity, b) = b`. -/
theorem JQ.top_jmin (b : JQ) : JQ.top.jmin b = b := by cases b <;> rfl

/-- The `reduce`-style minimum of `minDistToSet` equals the right-folded
minimum of the mapped distances, for any accumulator. -/
theorem foldl_jmin_eq (f : Point → Q) (l : List Point) (m : JQ) :
    l.foldl (fun m q => m.jmin (.fin (f q))) m =
      m.jmin ((l.map (fun q => JQ.fin (f q))).foldr JQ.jmin .top) := by
  induction l generalizing m with
  | nil => simp [JQ.jmin_top]
  | cons x xs ih =>
    simp only [List.foldl_cons, List.map_cons, List.foldr_cons, ih]
    rw [JQ.jmin_assoc]

/-- The left-folded `Math.min` of a non-empty spread equals the right-folded
minimum with `Infinity`. -/
theorem foldl_qmin_eq (l : List Q) (a : Q) :
    JQ.fin (l.foldl Q.qmin a) =
      (JQ.fin a).jmin ((l.map JQ.fin).foldr JQ.jmin .top) := by
  induction l generalizing a with
  | nil => simp [JQ.jmin_top]
  | cons x xs ih =>
    simp only [List.foldl_cons, List.map_cons, List.foldr_cons, ih]
    rw [← JQ.jmin_assoc]
    rfl

/-- The minimum distance of the claim formula: the right-folded minimum of
the 3D distances of `p` to the points of `l` (`Infinity` for empty `l`),
written independently of the source's `reduce`. -/
def specMinDist (sq : Q → Q) (p : Point) (l : List Point) : JQ :=
  (l.map (fun q => JQ.fin (dist3D sq p q))).foldr JQ.jmin .top

/-- `minDistToSet` computes the claim-side minimum. -/
theorem minDistToSet_eq_spec (sq : Q → Q) (p : Point) (l : List Point) :
    minDistToSet sq p l = specMinDist sq p l := by
  unfold minDistToSet specMinDist
  rw [foldl_jmin_eq, JQ.top_jmin]

/-- `Math.min(...l.map(dist))` of a non-empty list computes the claim-side
minimum. -/
theorem listMinBy_eq_spec (sq : Q → Q) (p : Point) (x : Point) (xs : List Point) :
    JQ.fin (listMinBy (dist3D sq p) (x :: xs)) = specMinDist sq p (x :: xs) := by
  unfold listMinBy listMin specMinDist
  simp only [List.map_cons, List.foldr_cons]
  rw [foldl_qmin_eq, List.map_map]
  rfl

/-- A number characterisation of `0 ≤ a` over `Q`. -/
theorem Q.zero_le_iff {a : Q} : (0 : Q) ≤ a ↔ 0 ≤ a.num := by
  change (0 : ℤ) * (a.den : ℤ) ≤ a.num * ((1 : ℕ) : ℤ) ↔ _
  simp

/-- A number characterisation of `a ≤ 1` over `Q`. -/
theorem Q.le_one_iff {a : Q} : a ≤ 1 ↔ a.num ≤ (a.den : ℤ) := by
  change a.num * ((1 : ℕ) : ℤ) ≤ (1 : ℤ) * (a.den : ℤ) ↔ _
  simp

/-- Products of nonnegative rationals are nonnegative. -/
theorem Q.mul_nonneg_qq {a b : Q} (ha : (0 : Q) ≤ a) (hb : (0 : Q) ≤ b) :
    (0 : Q) ≤ a * b := by
  rw [Q.zero_le_iff] at ha hb ⊢
  exact mul_nonneg ha hb

/-- Scaling a nonnegative constant by a factor of at most one does not
increase it. -/
theorem Q.mul_le_of_le_one {r c : Q} (h1 : r ≤ 1) (hc : (0 : Q) ≤ c) :
    r * c ≤ c := by
  rw [Q.le_one_iff] at h1
  rw [Q.zero_le_iff] at hc
  show (r.num * c.num) * (c.den : ℤ) ≤ c.num * ((r.den * c.den : ℕ) : ℤ)
  push_cast
  nlinarith [mul_le_mul_of_nonneg_right h1 hc, Q.denZ_pos c]

/-- The raw `mulberry32` output is a 32-bit value. -/
theorem mb32out_lt (t : Nat) : mb32out t < 2 ^ 32 := by
  unfold mb32out
  have h1 : imul32 (Nat.xor t (t >>> 15)) (t ||| 1) < 2 ^ 32 :=
    Nat.mod_lt _ (by decide)
  have h2 : ∀ r : Nat, r < 2 ^ 32 →
      Nat.xor r ((r + imul32 (Nat.xor r (r >>> 7)) (r ||| 61)) % 2 ^ 32) < 2 ^ 32 :=
    fun r hr => Nat.xor_lt_two_pow hr (Nat.mod_lt _ (by decide))
  have h3 := h2 _ h1
  refine Nat.xor_lt_two_pow h3 (lt_of_le_of_lt ?_ h3)
  rw [Nat.shiftRight_eq_div_pow]
  exact Nat.div_le_self _ _

/-- Each generator draw lies in `[0, 1]` (in fact in `[0, 1)`). -/
theorem randQ_bounds (t : Nat) : (0 : Q) ≤ (randQ t).1 ∧ (randQ t).1 ≤ 1 := by
  have h := mb32out_lt ((t + 0x6d2b79f5) % 2 ^ 32)
  have hval : (randQ t).1 =
      ⟨(mb32out ((t + 0x6d2b79f5) % 2 ^ 32) : ℤ), 4294967296, by decide⟩ := by
    unfold randQ mbNext Q.mk'
    dsimp only
    rw [dif_pos (by decide : (0 : Nat) < 4294967296)]
  rw [hval, Q.zero_le_iff, Q.le_one_iff]
  dsimp only
  omega

/-- The ranking score exactly as the specification words it:
`10·min(dB, dR) + 2·dB + dR + jitter` (additions in source order), where
`dB` is the candidate's minimum 3D distance to the already-chosen points
(or to the combined anchor-plus-chosen set when no point is chosen yet),
`dR` is its minimum 3D distance to the active anchors — infinite when no
anchors are active, in which case `min(dB, ∞) = dB` and the additive `dR`
contribution is dropped (zero). -/
def specScore (sq : Q → Q) (cand : Point) (chosen redAnchors : List Point)
    (jitter : Q) : JQ :=
  let dB := if chosen = [] then specMinDist sq cand (redAnchors ++ chosen)
    else specMinDist sq cand chosen
  let dR := specMinDist sq cand redAnchors
  (((dB.jmin dR).jscale 10).jadd (dB.jscale 2)).jadd
    (if dR = .top then .fin 0 else dR) |>.jadd (.fin jitter)

/-- A non-empty point list has a finite claim-side minimum distance. -/
theorem specMinDist_cons_ne_top (sq : Q → Q) (p x : Point) (xs : List Point) :
    specMinDist sq p (x :: xs) ≠ .top := by
  rw [← listMinBy_eq_spec]
  exact fun h => JQ.noConfusion h

/-- The claim-side minimum over an empty list is infinite. -/
theorem specMinDist_nil (sq : Q → Q) (p : Point) : specMinDist sq p [] = .top := rfl

/-- C7: the ranking score of `scoreMaximin` equals the claim formula
`10·min(dB, dR) + 2·dB + dR + jitter` (`specScore`, with the stated
`dB`/`dR` conventions), and the jitter drawn from the generator lies in
`[0, 0.05]`. -/
theorem c7_score_formula (sq : Q → Q) (cand : Point) (chosen redAnchors : List Point)
    (t : Nat) :
    (scoreMaximin sq cand chosen redAnchors t).1 =
      specScore sq cand chosen redAnchors ((randQ t).1 * Q.mk' 5 100) ∧
    (0 : Q) ≤ (randQ t).1 * Q.mk' 5 100 ∧
    (randQ t).1 * Q.mk' 5 100 ≤ Q.mk' 5 100 := by
  refine ⟨?_, Q.mul_nonneg_qq (randQ_bounds t).1 (by decide),
    Q.mul_le_of_le_one (randQ_bounds t).2 (by decide)⟩
  unfold scoreMaximin specScore
  cases chosen with
  | nil =>
    cases redAnchors with
    | nil => rfl
    | cons r rs =>
      simp [minDistToSet_eq_spec, listMinBy_eq_spec, specMinDist_cons_ne_top,
        specMinDist_nil, JQ.jmin_top]
      cases h : specMinDist sq cand (r :: rs) with
      | fin v => rfl
      | top => exact absurd h (specMinDist_cons_ne_top sq cand r rs)
  | cons x xs =>
    cases redAnchors with
    | nil =>
      simp [minDistToSet_eq_spec, listMinBy_eq_spec, specMinDist_cons_ne_top,
        specMinDist_nil, JQ.jmin_top]
    | cons r rs =>
      simp [minDistToSet_eq_spec, listMinBy_eq_spec, specMinDist_cons_ne_top,
        specMinDist_nil, JQ.jmin_top]
      cases h : specMinDist sq cand (r :: rs) with
      | fin v => rfl
      | top => exact absurd h (specMinDist_cons_ne_top sq cand r rs)

end ScoreFormula

section RefinementMonotonicity

theorem JQ.jle_of_jlt {a b : JQ} : a < b → a ≤ b :=
  match a, b with
  | .fin _, .fin _ => Q.le_of_lt_qq
  | .fin _, .top => fun _ => trivial
  | .top, _ => fun h => h.elim

/-- Invariant of the `for (const p of pool)` fold of `refinePoints`: the
accumulator either still carries the original point with its original
score, or it carries a strictly larger score that is the `scoreMaximin`
value of the carried candidate at some generator state. -/
theorem bestLoop_spec (sq : Q → Q) (others anchors : List Point)
    (cand0 : Point) (s0 : JQ) (pool : List Point) :
    ∀ (cand : Point) (score : JQ) (t : Nat),
      ((cand = cand0 ∧ score = s0) ∨
        (s0 < score ∧ ∃ tw, score = (scoreMaximin sq cand others anchors tw).1)) →
      ((bestLoop sq others anchors pool (cand, score, t)).1 = cand0 ∧
        (bestLoop sq others anchors pool (cand, score, t)).2.1 = s0) ∨
      (s0 < (bestLoop sq others anchors pool (cand, score, t)).2.1 ∧
        ∃ tw, (bestLoop sq others anchors pool (cand, score, t)).2.1 =
          (scoreMaximin sq (bestLoop sq others anchors pool (cand, score, t)).1
            others anchors tw).1) := by
  induction pool with
  | nil =>
    intro cand score t h
    rcases h with ⟨h1, h2⟩ | ⟨h1, h2⟩
    · exact Or.inl ⟨by simp [bestLoop, h1], by simp [bestLoop, h2]⟩
    · exact Or.inr ⟨by simpa [bestLoop] using h1, by simpa [bestLoop] using h2⟩
  | cons p ps ih =>
    intro cand score t h
    show _ ∨ _
    rw [bestLoop]
    dsimp only
    by_cases hlt : score < (scoreMaximin sq p others anchors t).1
    · rw [if_pos hlt]
      refine ih p (scoreMaximin sq p others anchors t).1
        (scoreMaximin sq p others anchors t).2 (Or.inr ⟨?_, t, rfl⟩)
      rcases h with ⟨h1, h2⟩ | ⟨h1, h2⟩
      · exact h2 ▸ hlt
      · exact JQ.jlt_of_jle_of_jlt (JQ.jle_of_jlt h1) hlt
    · rw [if_neg hlt]
      exact ih cand score (scoreMaximin sq p others anchors t).2 h

theorem getD_set_self {l : List Point} {i : Nat} {c : Point} (hi : i < l.length) :
    (l.set i c).getD i default = c := by
  rw [List.getD_eq_getElem?_getD, List.getElem?_set_self hi]
  rfl

/-- C2: in the refinement step for index `i` (the loop body that
`refinePoints` iterates over both passes), if the entry at `i` is replaced,
then the replacement's maximin score — as computed by the step at its
generator draw — is strictly greater than the maximin score the step
computed for the original point, both against the same fixed remaining four
points (`best.eraseIdx i`) and the same anchors. -/
theorem c2_refine_monotone (sq : Q → Q) (byZ : ℤ → List Point) (anchors : List Point)
    (best : List Point) (i : Nat) (t : Nat)
    (hrep : (refineStep sq byZ anchors best i t).1.getD i default ≠ best.getD i default) :
    ∃ tw : Nat,
      (scoreMaximin sq (best.getD i default) (best.eraseIdx i) anchors t).1 <
      (scoreMaximin sq ((refineStep sq byZ anchors best i t).1.getD i default)
        (best.eraseIdx i) anchors tw).1 := by
  have hshape : (refineStep sq byZ anchors best i t).1 =
      best.set i (bestLoop sq (best.eraseIdx i) anchors (refinePool byZ anchors best i)
        (best.getD i default,
         (scoreMaximin sq (best.getD i default) (best.eraseIdx i) anchors t).1,
         (scoreMaximin sq (best.getD i default) (best.eraseIdx i) anchors t).2)).1 := rfl
  by_cases hi : i < best.length
  · rcases bestLoop_spec sq (best.eraseIdx i) anchors (best.getD i default)
        (scoreMaximin sq (best.getD i default) (best.eraseIdx i) anchors t).1
        (refinePool byZ anchors best i)
        (best.getD i default)
        (scoreMaximin sq (best.getD i default) (best.eraseIdx i) anchors t).1
        (scoreMaximin sq (best.getD i default) (best.eraseIdx i) anchors t).2
        (Or.inl ⟨rfl, rfl⟩) with ⟨hc, _⟩ | ⟨hlt, tw, hsc⟩
    · exact absurd (by rw [hshape, hc, getD_set_self hi]) hrep
    · refine ⟨tw, ?_⟩
      rw [hshape, getD_set_self hi, ← hsc]
      exact hlt
  · exact absurd (by rw [hshape, List.set_eq_of_length_le (Nat.le_of_not_lt hi)]) hrep

/-- Five points for the C2 witness: the point at index 0 is close to its
neighbours, and the pool offers a strictly better-separated alternative. -/
def c2best : List Point := [⟨0, 1, 0⟩, ⟨0, 0, 0⟩, ⟨0, 3, 0⟩, ⟨3, 0, 0⟩, ⟨3, 3, 0⟩]

/-- The Z index for the C2 witness: one alternative at the Z key of index
0. -/
def c2byZ : ℤ → List Point := fun zk =>
  if zk = 0 then [⟨Q.mk' 3 2, Q.mk' 3 2, 0⟩] else []

/-- Witness for C2 at a concrete input on which the step replaces index 0. -/
theorem c2_refine_monotone_witness :
    ∃ tw : Nat,
      (scoreMaximin sqLin (c2best.getD 0 default) (c2best.eraseIdx 0) [] 0).1 <
      (scoreMaximin sqLin ((refineStep sqLin c2byZ [] c2best 0 0).1.getD 0 default)
        (c2best.eraseIdx 0) [] tw).1 :=
  c2_refine_monotone sqLin c2byZ [] c2best 0 0 (by decide)

end RefinementMonotonicity

section SearchMembership

/-- Inserting into a sorted prefix adds no new elements. -/
theorem sortInsert_mem {le : α → α → Bool} {a x : α} {l : List α}
    (h : x ∈ sortInsert le a l) : x = a ∨ x ∈ l := by
  induction l with
  | nil => simpa [sortInsert] using h
  | cons b bs ih =>
    rw [sortInsert] at h
    by_cases hle : le a b
    · rw [if_pos hle] at h
      exact List.mem_cons.mp h
    · rw [if_neg hle] at h
      rcases List.mem_cons.mp h with h1 | h1
      · exact Or.inr (by simp [h1])
      · rcases ih h1 with h2 | h2
        · exact Or.inl h2
        · exact Or.inr (by simp [h2])

/-- The stable sort permutes: every output element was an input element. -/
theorem stableSort_mem {le : α → α → Bool} {x : α} {l : List α}
    (h : x ∈ stableSort le l) : x ∈ l := by
  induction l with
  | nil => rw [stableSort] at h; exact h
  | cons a as ih =>
    rw [stableSort] at h
    rcases sortInsert_mem h with h | h
    · simp [h]
    · simp [ih h]

/-- `mapRng` with a first-component-preserving body maps the list onto
itself. -/
theorem mapRng_fst {f : Point → Nat → (Point × JQ) × Nat}
    (hf : ∀ a t, ((f a t).1).1 = a) (l : List Point) (t : Nat) :
    ((mapRng f l t).1).map Prod.fst = l := by
  induction l generalizing t with
  | nil => simp [mapRng]
  | cons a as ih => simp [mapRng, hf, ih]

/-- Every point of every solution recorded by `dfs` comes from some `byZ`
bucket: candidates enter a branch only through the filtered, scored and
ranked pool, which is drawn from `ctx.byZ`. -/
theorem dfs_mem (ctx : SearchCtx) (cands : List Point)
    (hsound : ∀ zk : ℤ, ∀ c ∈ ctx.byZ zk, c ∈ cands) :
    ∀ (fuel i : Nat) (chosen : List Point) (uX uY uZ : List ℤ) (st : SearchSt),
      (∀ p ∈ chosen, p ∈ cands) →
      (∀ sol ∈ st.solutions, ∀ p ∈ sol, p ∈ cands) →
      ∀ sol ∈ (dfs ctx fuel i chosen uX uY uZ st).2.solutions, ∀ p ∈ sol, p ∈ cands := by
  intro fuel
  induction fuel with
  | zero => intro i chosen uX uY uZ st hch hst; exact hst
  | succ fuel ih =>
    intro i chosen uX uY uZ st hch hst
    rw [dfs]
    dsimp only
    by_cases hguard : MAX_NODES < st.nodes
    · rw [if_pos hguard]
      exact hst
    · rw [if_neg hguard]
      by_cases hi : i = 5
      · rw [if_pos hi]
        intro sol hsol
        rcases List.mem_append.mp hsol with h | h
        · exact hst sol h
        · intro p hp
          rw [List.mem_singleton] at h
          exact hch p (h ▸ hp)
      · rw [if_neg hi]
        refine List.foldlRecOn
          (motive := fun acc : Bool × SearchSt =>
            ∀ sol ∈ acc.2.solutions, ∀ p ∈ sol, p ∈ cands) _ _ _ hst ?_
        intro acc hacc z hz
        by_cases hf : acc.1 = true
        · rw [if_pos hf]
          exact hacc
        · rw [if_neg hf]
          by_cases hz1 : uZ.contains (key01 z) = true
          · rw [if_pos hz1]
            exact hacc
          · rw [if_neg hz1]
            by_cases hp1 : ((ctx.byZ (key01 z)).filter
                (fun c => !uX.contains (key01 c.x) && !uY.contains (key01 c.y))).isEmpty = true
            · rw [if_pos hp1]
              exact hacc
            · rw [if_neg hp1]
              by_cases hp2 : (((ctx.byZ (key01 z)).filter
                  (fun c => !uX.contains (key01 c.x) && !uY.contains (key01 c.y))).filter
                  (fun c => ctx.redAnchors.all (fun r => farRB c r) &&
                    chosen.all (fun q => farBB c q))).isEmpty = true
              · rw [if_pos hp2]
                exact hacc
              · rw [if_neg hp2]
                refine List.foldlRecOn
                  (motive := fun acc2 : Bool × SearchSt =>
                    ∀ sol ∈ acc2.2.solutions, ∀ p ∈ sol, p ∈ cands) _ _ _ hacc ?_
                intro acc2 hacc2 c hc
                by_cases hf2 : acc2.1 = true
                · rw [if_pos hf2]
                  exact hacc2
                · rw [if_neg hf2]
                  refine ih (i + 1) (chosen ++ [c]) _ _ _ acc2.2 ?_ hacc2
                  intro p hp
                  rcases List.mem_append.mp hp with h | h
                  · exact hch p h
                  · rw [List.mem_singleton] at h
                    subst h
                    rcases List.mem_map.mp hc with ⟨pr, hpr, rfl⟩
                    have h1 := List.take_subset _ _ hpr
                    have h2 := stableSort_mem h1
                    have h3 : pr.1 ∈ (mapRng
                        (fun c t =>
                          let p1 := scoreMaximin ctx.sq c chosen ctx.redAnchors t
                          let p2 := randQ p1.2
                          ((c, p1.1.jadd (.fin (p2.1 * Q.mk' 2 100))), p2.2))
                        (((ctx.byZ (key01 z)).filter
                          (fun c => !uX.contains (key01 c.x) && !uY.contains (key01 c.y))).filter
                          (fun c => ctx.redAnchors.all (fun r => farRB c r) &&
                            chosen.all (fun q => farBB c q)))
                        acc.2.rng).1.map Prod.fst := List.mem_map_of_mem _ h2
                    rw [mapRng_fst (fun a t => rfl)] at h3
                    have h4 := (List.mem_filter.mp h3).1
                    have h5 := (List.mem_filter.mp h4).1
                    exact hsound _ _ h5

/-- `swapIdx` preserves the length. -/
theorem swapIdx_length [Inhabited α] (l : List α) (i j : Nat) :
    (swapIdx l i j).length = l.length := by
  simp [swapIdx]

/-- The Fisher-Yates loop preserves the length. -/
theorem shuffleGo_length [Inhabited α] :
    ∀ (n : Nat) (l : List α) (t : Nat), ((shuffleGo l t n).1).length = l.length := by
  intro n
  induction n with
  | zero => intro l t; rfl
  | succ n ih => intro l t; rw [shuffleGo]; rw [ih]; exact swapIdx_length l _ _

/-- `shuffle` preserves the length. -/
theorem shuffle_length [Inhabited α] (l : List α) (t : Nat) :
    ((shuffle l t).1).length = l.length := shuffleGo_length _ l t

/-- On a non-empty shuffled candidate list the relaxation-level loop always
reaches a non-empty filter (level 3 keeps everything) and therefore always
throws the `scoreMaximin(c, chosen)` TypeError. -/
theorem levelLoop_err (anchors0 chosen : List Point) (ux uy uz : List ℤ)
    (all : List Point) (hne : all ≠ []) :
    levelLoop all (fallbackLevels anchors0 chosen ux uy uz) = .error .typeError := by
  simp only [fallbackLevels, levelLoop]
  split_ifs with h1 h2 h3 h4
  · exfalso
    rw [List.filter_true] at h4
    exact hne (List.isEmpty_iff.mp h4)
  all_goals rfl

/-- The five-slot fallback loop throws at its very first slot whenever the
shuffled candidate list is non-empty. -/
theorem fallbackLoop_err (anchors0 all : List Point) (hne : all ≠ [])
    (chosen : List Point) (ux uy uz : List ℤ) (t : Nat) :
    fallbackLoop anchors0 all 5 (chosen, ux, uy, uz, t) = .error .typeError := by
  show fallbackLoop anchors0 all (4 + 1) (chosen, ux, uy, uz, t) = .error .typeError
  rw [fallbackLoop, levelLoop_err _ _ _ _ _ _ hne]

/-- The refinement inner loop returns either the incumbent or a pool
element. -/
theorem bestLoop_mem (sq : Q → Q) (others anchors : List Point) :
    ∀ (pool : List Point) (acc : Point × JQ × Nat),
      (bestLoop sq others anchors pool acc).1 = acc.1 ∨
        (bestLoop sq others anchors pool acc).1 ∈ pool := by
  intro pool
  induction pool with
  | nil => intro acc; exact Or.inl rfl
  | cons p ps ih =>
    rintro ⟨cand, score, t⟩
    rw [bestLoop]
    rcases h : scoreMaximin sq p others anchors t with ⟨sc, t2⟩
    dsimp only
    by_cases hlt : score < sc
    · rw [if_pos hlt]
      rcases ih (p, sc, t2) with h' | h'
      · exact Or.inr (h' ▸ List.mem_cons_self p ps)
      · exact Or.inr (List.mem_cons_of_mem p h')
    · rw [if_neg hlt]
      rcases ih (cand, score, t2) with h' | h'
      · exact Or.inl h'
      · exact Or.inr (List.mem_cons_of_mem p h')

/-- One refinement step writes back either an original point or a `byZ`
member, so membership in the candidate list is preserved. -/
theorem refineStep_mem (sq : Q → Q) (byZ : ℤ → List Point) (anchors : List Point)
    (cands best : List Point) (i t : Nat)
    (hsound : ∀ zk : ℤ, ∀ c ∈ byZ zk, c ∈ cands)
    (hbest : ∀ q ∈ best, q ∈ cands) :
    ∀ p ∈ (refineStep sq byZ anchors best i t).1, p ∈ cands := by
  intro p hp
  by_cases hi : i < best.length
  · have hshape : (refineStep sq byZ anchors best i t).1 =
        best.set i (bestLoop sq (best.eraseIdx i) anchors
          (refinePool byZ anchors best i)
          (best.getD i default,
            (scoreMaximin sq (best.getD i default) (best.eraseIdx i) anchors t).1,
            (scoreMaximin sq (best.getD i default) (best.eraseIdx i) anchors t).2)).1 := rfl
    rw [hshape] at hp
    rcases List.mem_or_eq_of_mem_set hp with h | h
    · exact hbest p h
    · rcases bestLoop_mem sq (best.eraseIdx i) anchors (refinePool byZ anchors best i) _
        with h' | h'
      · have hbi : best.getD i default ∈ best := by
          rw [List.getD_eq_getElem?_getD, List.getElem?_eq_getElem hi]
          exact List.getElem_mem hi
        exact hbest p (by rw [h, h']; exact hbi)
      · have : p ∈ refinePool byZ anchors best i := h ▸ h'
        have := (List.mem_filter.mp this).1
        exact hsound _ p this
  · have hshape : (refineStep sq byZ anchors best i t).1 =
        best.set i (bestLoop sq (best.eraseIdx i) anchors
          (refinePool byZ anchors best i)
          (best.getD i default,
            (scoreMaximin sq (best.getD i default) (best.eraseIdx i) anchors t).1,
            (scoreMaximin sq (best.getD i default) (best.eraseIdx i) anchors t).2)).1 := rfl
    rw [hshape, List.set_eq_of_length_le (Nat.le_of_not_lt hi)] at hp
    exact hbest p hp

/-- A whole refinement pass preserves membership in the candidate list. -/
theorem refinePass_mem (sq : Q → Q) (byZ : ℤ → List Point) (anchors : List Point)
    (cands : List Point)
    (hsound : ∀ zk : ℤ, ∀ c ∈ byZ zk, c ∈ cands) :
    ∀ (idxs : List Nat) (best : List Point) (t : Nat),
      (∀ q ∈ best, q ∈ cands) →
      ∀ p ∈ (refinePass sq byZ anchors idxs (best, t)).1, p ∈ cands := by
  intro idxs
  induction idxs with
  | nil => intro best t hbest; exact hbest
  | cons i is ih =>
    intro best t hbest
    rw [refinePass]
    rcases h : refineStep sq byZ anchors best i t with ⟨best2, t2⟩
    have hb2 : ∀ q ∈ best2, q ∈ cands := by
      intro q hq
      have := refineStep_mem sq byZ anchors cands best i t hsound hbest q
      rw [h] at this
      exact this hq
    exact ih best2 t2 hb2

/-- `refinePoints` (two passes) preserves membership in the candidate
list. -/
theorem refinePoints_mem (sq : Q → Q) (byZ : ℤ → List Point) (anchors : List Point)
    (cands pts : List Point) (t : Nat)
    (hsound : ∀ zk : ℤ, ∀ c ∈ byZ zk, c ∈ cands)
    (hpts : ∀ q ∈ pts, q ∈ cands) :
    ∀ p ∈ (refinePoints sq byZ anchors pts t).1, p ∈ cands := by
  rw [refinePoints]
  rcases h : refinePass sq byZ anchors (List.range pts.length) (pts, t) with ⟨mid, t2⟩
  have hmid : ∀ q ∈ mid, q ∈ cands := by
    intro q hq
    have := refinePass_mem sq byZ anchors cands hsound (List.range pts.length) pts t hpts q
    rw [h] at this
    exact this hq
  exact refinePass_mem sq byZ anchors cands hsound (List.range pts.length) mid t2 hmid

/-- A `getD _ []` pick out of a list of lists satisfies any property that
all listed lists satisfy (the default `[]` vacuously so). -/
theorem getD_nil_mem {α} (ls : List (List α)) (n : Nat) (P : α → Prop)
    (h : ∀ sol ∈ ls, ∀ p ∈ sol, P p) : ∀ p ∈ ls.getD n [], P p := by
  intro p hp
  rw [List.getD_eq_getElem?_getD] at hp
  rcases hg : ls[n]? with _ | sol
  · rw [hg, Option.getD_none] at hp
    exact absurd hp (List.not_mem_nil p)
  · rw [hg, Option.getD_some] at hp
    exact h sol (List.getElem?_mem hg) p hp

/-- On a non-empty candidate list with a sound `byZ` index, any normal
return of the post-guard generator only contains candidates: the feasible
path refines a recorded `dfs` solution, and the fallback path never
returns normally. -/
theorem generateRest_mem (sq : Q → Q) (args : GenArgs) (seedOn : Bool) (t0 : Nat)
    (res : GenResult)
    (hsound : ∀ zk : ℤ, ∀ c ∈ args.byZ zk, c ∈ args.candidates)
    (hne : args.candidates ≠ [])
    (hok : generateRest sq args seedOn t0 = .ok res) :
    ∀ p ∈ res.points, p ∈ args.candidates := by
  have hall : ∀ r : Nat, (shuffle args.candidates r).1 ≠ [] := by
    intro r hnil
    have hl := shuffle_length args.candidates r
    rw [hnil] at hl
    exact hne (List.eq_nil_of_length_eq_zero hl.symm)
  unfold generateRest at hok
  dsimp only at hok
  split at hok
  · rw [fallbackLoop_err _ _ (hall _)] at hok
    exact absurd hok (by simp)
  · rw [Except.ok.injEq] at hok
    subst hok
    dsimp only
    refine refinePoints_mem sq args.byZ (activeAnchors args) args.candidates _ _ hsound ?_
    exact getD_nil_mem _ _ _
      (dfs_mem _ args.candidates hsound 6 0 [] _ _ [] _ (by simp) (by simp))

/-- **C9.**  When `byZ` indexes exactly the candidates by their rounded Z
key, every point of a successfully returned result is an element of the
supplied candidate list: the search only ever picks candidates out of
`byZ`, refinement only ever swaps a point for a member of a `byZ` pool (or
keeps it), and the fallback path never returns normally on a non-empty
candidate list (it throws, cf. C5), so no path fabricates a point. -/
theorem c9_points_from_candidates (sq : Q → Q) (now : Nat) (seed : Option (List Nat))
    (args : GenArgs) (res : GenResult)
    (hbz : ∀ (zk : ℤ) (c : Point), c ∈ args.byZ zk ↔ c ∈ args.candidates ∧ key01 c.z = zk)
    (hok : generateBluePoints sq now seed args = .ok res) :
    ∀ p ∈ res.points, p ∈ args.candidates := by
  by_cases hc : args.candidates.isEmpty = true
  · unfold generateBluePoints at hok
    rw [if_pos hc, Except.ok.injEq] at hok
    subst hok
    intro p hp
    exact absurd hp (List.not_mem_nil p)
  · unfold generateBluePoints at hok
    rw [if_neg hc] at hok
    exact generateRest_mem sq args _ _ res (fun zk c hcz => ((hbz zk c).mp hcz).1)
      (fun hnil => hc (by rw [hnil]; rfl)) hok

/-- The concrete index `byZFive` indexes `candFive` exactly by rounded Z
key. -/
theorem byZFive_exact :
    ∀ (zk : ℤ) (c : Point), c ∈ byZFive zk ↔ c ∈ candFive ∧ key01 c.z = zk := by
  intro zk c
  constructor
  · intro h
    unfold byZFive at h
    split_ifs at h with h1 h2 h3 h4 h5
    · rw [List.mem_singleton] at h; subst h; subst h1; exact ⟨by decide, by decide⟩
    · rw [List.mem_singleton] at h; subst h; subst h2; exact ⟨by decide, by decide⟩
    · rw [List.mem_singleton] at h; subst h; subst h3; exact ⟨by decide, by decide⟩
    · rw [List.mem_singleton] at h; subst h; subst h4; exact ⟨by decide, by decide⟩
    · rw [List.mem_singleton] at h; subst h; subst h5; exact ⟨by decide, by decide⟩
    · exact absurd h (List.not_mem_nil c)
  · rintro ⟨hc, hk⟩
    rcases (by simpa [candFive] using hc :
        c = bp1 ∨ c = bp2 ∨ c = bp3 ∨ c = bp4 ∨ c = bp5) with h | h | h | h | h <;>
      subst h <;> rw [← hk] <;> decide

/-- Witness for C9: on the concrete feasible scenario the first returned
point is indeed a supplied candidate. -/
theorem c9_points_from_candidates_witness : bp1 ∈ argsSep.candidates :=
  c9_points_from_candidates sqLin 0 (some [97]) argsSep ⟨[bp1, bp2, bp3, bp4, bp5], true⟩
    byZFive_exact (by decide) bp1 (by decide)

end SearchMembership

section InvariantDefs

/-- The margin premise of the invariant claim, for one candidate: at least
`MARGIN` from every polygon edge in XY (stated on the squared distance,
exact for the real square root) and at least `MARGIN` from floor and
ceiling in Z. -/
def cMarginOk (poly : List Point2) (hgt : Q) (c : Point) : Prop :=
  JQ.fin (MARGIN * MARGIN) ≤ minDistSqToEdges2D ⟨c.x, c.y⟩ poly ∧
    MARGIN ≤ c.z ∧ c.z ≤ hgt - MARGIN

instance (poly : List Point2) (hgt : Q) (c : Point) : Decidable (cMarginOk poly hgt c) :=
  inferInstanceAs (Decidable (_ ∧ _ ∧ _))

/-- The five §3 invariants for a list of blue points against the fixed
active anchors: margins, pairwise-distinct rounded X keys and Y keys over
anchors and points together, pairwise-distinct rounded Z keys over the
points, anchor-blue distance at least `MIN_RED_BLUE`, and blue-blue
distance at least `MIN_BLUE_BLUE` (distances in squared form). -/
def goodChoice (poly : List Point2) (hgt : Q) (anchors pts : List Point) : Prop :=
  (∀ p ∈ pts, cMarginOk poly hgt p) ∧
  (anchors ++ pts).Pairwise (fun p q => key01 p.x ≠ key01 q.x) ∧
  (anchors ++ pts).Pairwise (fun p q => key01 p.y ≠ key01 q.y) ∧
  pts.Pairwise (fun p q => key01 p.z ≠ key01 q.z) ∧
  (∀ r ∈ anchors, ∀ p ∈ pts, MIN_RED_BLUE * MIN_RED_BLUE ≤ distSq3D r p) ∧
  pts.Pairwise (fun p q => MIN_BLUE_BLUE * MIN_BLUE_BLUE ≤ distSq3D p q)

instance (poly : List Point2) (hgt : Q) (anchors pts : List Point) :
    Decidable (goodChoice poly hgt anchors pts) :=
  inferInstanceAs (Decidable (_ ∧ _ ∧ _ ∧ _ ∧ _ ∧ _))

/-- The amended hypothesis of C1: the active anchors must themselves have
pairwise distinct rounded X keys and pairwise distinct rounded Y keys (the
source seeds `usedX`/`usedY` from a `Set`, silently deduplicating). -/
def anchorsKeyDistinct (anchors : List Point) : Prop :=
  anchors.Pairwise (fun p q => key01 p.x ≠ key01 q.x ∧ key01 p.y ≠ key01 q.y)

instance (anchors : List Point) : Decidable (anchorsKeyDistinct anchors) :=
  inferInstanceAs (Decidable (List.Pairwise _ _))

/-- A large square room for the concrete C1 scenarios: all of `candFive`
keeps a full 1 m from every wall and from floor and ceiling. -/
def roomPoly : List Point2 := [⟨0, 0⟩, ⟨10, 0⟩, ⟨10, 10⟩, ⟨0, 10⟩]

/-- The room height for the concrete C1 scenarios. -/
def roomHgt : Q := 3

end InvariantDefs

section InvariantHelpers

/-- Numerator of a product. -/
theorem Q.mul_num_qq (a b : Q) : (a * b).num = a.num * b.num := rfl

/-- Denominator of a product. -/
theorem Q.mul_den_qq (a b : Q) : (a * b).den = a.den * b.den := rfl

/-- Numerator of a sum. -/
theorem Q.add_num_qq (a b : Q) : (a + b).num = a.num * b.den + b.num * a.den := rfl

/-- Denominator of a sum. -/
theorem Q.add_den_qq (a b : Q) : (a + b).den = a.den * b.den := rfl

/-- Numerator of a difference. -/
theorem Q.sub_num_qq (a b : Q) : (a - b).num = a.num * b.den - b.num * a.den := rfl

/-- Denominator of a difference. -/
theorem Q.sub_den_qq (a b : Q) : (a - b).den = a.den * b.den := rfl

/-- The squared 3D distance is symmetric. -/
theorem distSq3D_comm (a b : Point) : distSq3D a b = distSq3D b a := by
  apply Q.ext_qq <;>
    simp only [distSq3D, Q.mul_num_qq, Q.mul_den_qq, Q.add_num_qq, Q.add_den_qq,
      Q.sub_num_qq, Q.sub_den_qq] <;>
    ring

/-- Writing an element back into its own slot is the identity. -/
theorem set_getD_self_eq (l : List Point) (n : Nat) (h : n < l.length) :
    l.set n (l.getD n default) = l := by
  have hg : l.getD n default = l.get ⟨n, h⟩ := by
    rw [List.getD_eq_getElem?_getD, List.getElem?_eq_getElem h, Option.getD_some]
    rfl
  rw [hg]
  apply List.ext_getElem
  · simp
  · intro i h1 h2
    rw [List.getElem_set]
    by_cases hni : n = i
    · rw [if_pos hni]
      subst hni
      rfl
    · rw [if_neg hni]

/-- Setting inside the right part of an append. -/
theorem set_append_right (l₁ l₂ : List Point) (n : Nat) (a : Point) :
    (l₁ ++ l₂).set (l₁.length + n) a = l₁ ++ l₂.set n a := by
  induction l₁ with
  | nil => simp
  | cons x xs ih => simp [List.set, Nat.succ_add, ih]

/-- A `set` keeps a pairwise property when the new element relates to every
kept slot in both directions. -/
theorem pairwise_set_of {R : Point → Point → Prop} (l : List Point) (n : Nat) (a : Point)
    (h : l.Pairwise R)
    (ha : ∀ j (hj : j < l.length), j ≠ n → R (l.get ⟨j, hj⟩) a ∧ R a (l.get ⟨j, hj⟩)) :
    (l.set n a).Pairwise R := by
  rw [List.pairwise_iff_getElem] at h ⊢
  intro i j hi hj hij
  simp only [List.length_set] at hi hj
  rw [List.getElem_set, List.getElem_set]
  by_cases hin : n = i
  · rw [if_pos hin]
    by_cases hjn : n = j
    · exact absurd (hin ▸ hjn ▸ hij) (lt_irrefl _)
    · rw [if_neg hjn]
      exact (ha j hj (fun hh => hjn hh.symm)).2
  · rw [if_neg hin]
    by_cases hjn : n = j
    · rw [if_pos hjn]
      exact (ha i hi (fun hh => hin hh.symm)).1
    · rw [if_neg hjn]
      exact h i j hi hj hij

end InvariantHelpers

/-- Appending one candidate that meets the margins, avoids all committed
keys and keeps both distance bounds preserves the §3 invariants. -/
theorem goodChoice_snoc (poly : List Point2) (hgt : Q) (anchors chosen : List Point)
    (c : Point)
    (hgood : goodChoice poly hgt anchors chosen)
    (hm : cMarginOk poly hgt c)
    (hx : ∀ a ∈ anchors ++ chosen, key01 a.x ≠ key01 c.x)
    (hy : ∀ a ∈ anchors ++ chosen, key01 a.y ≠ key01 c.y)
    (hzk : ∀ a ∈ chosen, key01 a.z ≠ key01 c.z)
    (hrb : ∀ r ∈ anchors, MIN_RED_BLUE * MIN_RED_BLUE ≤ distSq3D r c)
    (hbb : ∀ q ∈ chosen, MIN_BLUE_BLUE * MIN_BLUE_BLUE ≤ distSq3D q c) :
    goodChoice poly hgt anchors (chosen ++ [c]) := by
  obtain ⟨g1, g2, g3, g4, g5, g6⟩ := hgood
  refine ⟨?_, ?_, ?_, ?_, ?_, ?_⟩
  · intro p hp
    rcases List.mem_append.mp hp with h | h
    · exact g1 p h
    · rw [List.mem_singleton] at h
      subst h
      exact hm
  · rw [← List.append_assoc, List.pairwise_append]
    refine ⟨g2, List.pairwise_singleton _ _, ?_⟩
    intro a ha b hb
    rw [List.mem_singleton] at hb
    subst hb
    exact hx a ha
  · rw [← List.append_assoc, List.pairwise_append]
    refine ⟨g3, List.pairwise_singleton _ _, ?_⟩
    intro a ha b hb
    rw [List.mem_singleton] at hb
    subst hb
    exact hy a ha
  · rw [List.pairwise_append]
    refine ⟨g4, List.pairwise_singleton _ _, ?_⟩
    intro a ha b hb
    rw [List.mem_singleton] at hb
    subst hb
    exact hzk a ha
  · intro r hr p hp
    rcases List.mem_append.mp hp with h | h
    · exact g5 r hr p h
    · rw [List.mem_singleton] at h
      subst h
      exact hrb r hr
  · rw [List.pairwise_append]
    refine ⟨g6, List.pairwise_singleton _ _, ?_⟩
    intro a ha b hb
    rw [List.mem_singleton] at hb
    subst hb
    exact hbb a ha

/-- Every solution `dfs` records satisfies the §3 invariants and has
exactly five points, provided the committed-key lists cover the anchors and
the partial choice, the partial choice is invariant-clean, and `byZ`
indexes the margin-clean candidates exactly. -/
theorem dfs_good (poly : List Point2) (hgt : Q) (ctx : SearchCtx) (cands : List Point)
    (hbz : ∀ (zk : ℤ) (c : Point), c ∈ ctx.byZ zk ↔ c ∈ cands ∧ key01 c.z = zk)
    (hmargin : ∀ c ∈ cands, cMarginOk poly hgt c) :
    ∀ (fuel i : Nat) (chosen : List Point) (uX uY uZ : List ℤ) (st : SearchSt),
      chosen.length = i →
      goodChoice poly hgt ctx.redAnchors chosen →
      (∀ a ∈ ctx.redAnchors ++ chosen, uX.contains (key01 a.x) = true) →
      (∀ a ∈ ctx.redAnchors ++ chosen, uY.contains (key01 a.y) = true) →
      (∀ a ∈ chosen, uZ.contains (key01 a.z) = true) →
      (∀ sol ∈ st.solutions, sol.length = 5 ∧ goodChoice poly hgt ctx.redAnchors sol) →
      ∀ sol ∈ (dfs ctx fuel i chosen uX uY uZ st).2.solutions,
        sol.length = 5 ∧ goodChoice poly hgt ctx.redAnchors sol := by
  intro fuel
  induction fuel with
  | zero => intro i chosen uX uY uZ st _ _ _ _ _ hst; exact hst
  | succ fuel ih =>
    intro i chosen uX uY uZ st hlen hgood hux huy huz hst
    rw [dfs]
    dsimp only
    by_cases hguard : MAX_NODES < st.nodes
    · rw [if_pos hguard]
      exact hst
    · rw [if_neg hguard]
      by_cases hi : i = 5
      · rw [if_pos hi]
        intro sol hsol
        rcases List.mem_append.mp hsol with h | h
        · exact hst sol h
        · rw [List.mem_singleton] at h
          subst h
          exact ⟨by rw [hlen, hi], hgood⟩
      · rw [if_neg hi]
        refine List.foldlRecOn
          (motive := fun acc : Bool × SearchSt =>
            ∀ sol ∈ acc.2.solutions,
              sol.length = 5 ∧ goodChoice poly hgt ctx.redAnchors sol) _ _ _ hst ?_
        intro acc hacc z hz
        by_cases hf : acc.1 = true
        · rw [if_pos hf]
          exact hacc
        · rw [if_neg hf]
          by_cases hz1 : uZ.contains (key01 z) = true
          · rw [if_pos hz1]
            exact hacc
          · rw [if_neg hz1]
            by_cases hp1 : ((ctx.byZ (key01 z)).filter
                (fun c => !uX.contains (key01 c.x) && !uY.contains (key01 c.y))).isEmpty = true
            · rw [if_pos hp1]
              exact hacc
            · rw [if_neg hp1]
              by_cases hp2 : (((ctx.byZ (key01 z)).filter
                  (fun c => !uX.contains (key01 c.x) && !uY.contains (key01 c.y))).filter
                  (fun c => ctx.redAnchors.all (fun r => farRB c r) &&
                    chosen.all (fun q => farBB c q))).isEmpty = true
              · rw [if_pos hp2]
                exact hacc
              · rw [if_neg hp2]
                refine List.foldlRecOn
                  (motive := fun acc2 : Bool × SearchSt =>
                    ∀ sol ∈ acc2.2.solutions,
                      sol.length = 5 ∧ goodChoice poly hgt ctx.redAnchors sol) _ _ _ hacc ?_
                intro acc2 hacc2 c hc
                by_cases hf2 : acc2.1 = true
                · rw [if_pos hf2]
                  exact hacc2
                · rw [if_neg hf2]
                  have hcpool : c ∈ ((ctx.byZ (key01 z)).filter
                      (fun c => !uX.contains (key01 c.x) && !uY.contains (key01 c.y))).filter
                      (fun c => ctx.redAnchors.all (fun r => farRB c r) &&
                        chosen.all (fun q => farBB c q)) := by
                    rcases List.mem_map.mp hc with ⟨pr, hpr, rfl⟩
                    have h1 := List.take_subset _ _ hpr
                    have h2 := stableSort_mem h1
                    have h3 : pr.1 ∈ (mapRng
                        (fun c t =>
                          let p1 := scoreMaximin ctx.sq c chosen ctx.redAnchors t
                          let p2 := randQ p1.2
                          ((c, p1.1.jadd (.fin (p2.1 * Q.mk' 2 100))), p2.2))
                        (((ctx.byZ (key01 z)).filter
                          (fun c => !uX.contains (key01 c.x) && !uY.contains (key01 c.y))).filter
                          (fun c => ctx.redAnchors.all (fun r => farRB c r) &&
                            chosen.all (fun q => farBB c q)))
                        acc.2.rng).1.map Prod.fst := List.mem_map_of_mem _ h2
                    rw [mapRng_fst (fun a t => rfl)] at h3
                    exact h3
                  have hcpool0 := (List.mem_filter.mp hcpool).1
                  have hcbyz := (List.mem_filter.mp hcpool0).1
                  obtain ⟨hccand, hczk⟩ := (hbz _ c).mp hcbyz
                  have hxy := (List.mem_filter.mp hcpool0).2
                  have hfil := (List.mem_filter.mp hcpool).2
                  rw [Bool.and_eq_true] at hxy hfil
                  have hxf : uX.contains (key01 c.x) = false := by
                    have := hxy.1
                    rwa [Bool.not_eq_true'] at this
                  have hyf : uY.contains (key01 c.y) = false := by
                    have := hxy.2
                    rwa [Bool.not_eq_true'] at this
                  have hrb : ∀ r ∈ ctx.redAnchors,
                      MIN_RED_BLUE * MIN_RED_BLUE ≤ distSq3D r c := by
                    intro r hr
                    have := (List.all_eq_true.mp hfil.1) r hr
                    rw [distSq3D_comm]
                    exact of_decide_eq_true this
                  have hbb : ∀ q ∈ chosen,
                      MIN_BLUE_BLUE * MIN_BLUE_BLUE ≤ distSq3D q c := by
                    intro q hq
                    have := (List.all_eq_true.mp hfil.2) q hq
                    rw [distSq3D_comm]
                    exact of_decide_eq_true this
                  have hxne : ∀ a ∈ ctx.redAnchors ++ chosen, key01 a.x ≠ key01 c.x := by
                    intro a ha heq
                    have h2 := hux a ha
                    rw [heq] at h2
                    rw [h2] at hxf
                    exact Bool.noConfusion hxf
                  have hyne : ∀ a ∈ ctx.redAnchors ++ chosen, key01 a.y ≠ key01 c.y := by
                    intro a ha heq
                    have h2 := huy a ha
                    rw [heq] at h2
                    rw [h2] at hyf
                    exact Bool.noConfusion hyf
                  have hzne : ∀ a ∈ chosen, key01 a.z ≠ key01 c.z := by
                    intro a ha heq
                    have := huz a ha
                    rw [heq, hczk] at this
                    exact hz1 this
                  refine ih (i + 1) (chosen ++ [c]) _ _ _ acc2.2 ?_ ?_ ?_ ?_ ?_ hacc2
                  · rw [List.length_append, hlen]
                    rfl
                  · exact goodChoice_snoc poly hgt ctx.redAnchors chosen c hgood
                      (hmargin c hccand) hxne hyne hzne hrb hbb
                  · intro a ha
                    rw [← List.append_assoc] at ha
                    rcases List.mem_append.mp ha with h | h
                    · have h2 := hux a h
                      simp at h2
                      simp [h2]
                    · rw [List.mem_singleton] at h
                      subst h
                      simp
                  · intro a ha
                    rw [← List.append_assoc] at ha
                    rcases List.mem_append.mp ha with h | h
                    · have h2 := huy a h
                      simp at h2
                      simp [h2]
                    · rw [List.mem_singleton] at h
                      subst h
                      simp
                  · intro a ha
                    rcases List.mem_append.mp ha with h | h
                    · have h2 := huz a h
                      simp at h2
                      simp [h2]
                    · rw [List.mem_singleton] at h
                      subst h
                      rw [hczk]
                      simp

/-- `refineStep` keeps the length. -/
theorem refineStep_length (sq : Q → Q) (byZ : ℤ → List Point) (anchors best : List Point)
    (i t : Nat) : (refineStep sq byZ anchors best i t).1.length = best.length := by
  have hshape : (refineStep sq byZ anchors best i t).1 =
      best.set i (bestLoop sq (best.eraseIdx i) anchors
        (refinePool byZ anchors best i)
        (best.getD i default,
          (scoreMaximin sq (best.getD i default) (best.eraseIdx i) anchors t).1,
          (scoreMaximin sq (best.getD i default) (best.eraseIdx i) anchors t).2)).1 := rfl
  rw [hshape, List.length_set]

/-- What membership in the refinement pool guarantees: same-Z-bucket
membership, and key distinctness plus both distance bounds against every
other point and every anchor. -/
theorem refinePool_conds (byZ : ℤ → List Point) (anchors best : List Point) (i : Nat)
    (cand : Point) (hcand : cand ∈ refinePool byZ anchors best i) :
    cand ∈ byZ (key01 (best.getD i default).z) ∧
    (∀ j (hj : j < best.length), j ≠ i →
        key01 (best.get ⟨j, hj⟩).x ≠ key01 cand.x ∧
        key01 (best.get ⟨j, hj⟩).y ≠ key01 cand.y ∧
        MIN_BLUE_BLUE * MIN_BLUE_BLUE ≤ distSq3D (best.get ⟨j, hj⟩) cand) ∧
    (∀ r ∈ anchors, key01 r.x ≠ key01 cand.x ∧ key01 r.y ≠ key01 cand.y ∧
        MIN_RED_BLUE * MIN_RED_BLUE ≤ distSq3D r cand) := by
  rw [refinePool] at hcand
  dsimp only at hcand
  obtain ⟨hbyz, hfilt⟩ := List.mem_filter.mp hcand
  simp only [Bool.and_eq_true] at hfilt
  obtain ⟨⟨⟨⟨hp1, hp2⟩, hp3⟩, hp4⟩, hp5⟩ := hfilt
  refine ⟨hbyz, ?_, ?_⟩
  · intro j hj hji
    rw [Bool.not_eq_true', List.any_eq_false] at hp2
    have hmem : (j, best.get ⟨j, hj⟩) ∈ best.enum := by
      rw [List.mk_mem_enum_iff_getElem?]
      exact List.getElem?_eq_getElem hj
    have hx := hp2 _ hmem
    have hb := List.all_eq_true.mp hp5 _ hmem
    simp [hji] at hx hb
    refine ⟨hx.1, hx.2, ?_⟩
    rw [distSq3D_comm]
    exact of_decide_eq_true hb
  · intro r hr
    rw [Bool.not_eq_true', List.any_eq_false] at hp3
    have hxy := hp3 r hr
    simp at hxy
    have hd := List.all_eq_true.mp hp4 r hr
    refine ⟨hxy.1, hxy.2, ?_⟩
    rw [distSq3D_comm]
    exact of_decide_eq_true hd

/-- One refinement step preserves the §3 invariants: the written-back point
is either the original one or a pool member, and the pool filter re-checks
every invariant against the anchors and the other four points. -/
theorem refineStep_good (sq : Q → Q) (byZ : ℤ → List Point) (anchors cands : List Point)
    (poly : List Point2) (hgt : Q) (best : List Point) (i t : Nat)
    (hbz : ∀ (zk : ℤ) (c : Point), c ∈ byZ zk ↔ c ∈ cands ∧ key01 c.z = zk)
    (hmargin : ∀ c ∈ cands, cMarginOk poly hgt c)
    (hgood : goodChoice poly hgt anchors best) :
    goodChoice poly hgt anchors (refineStep sq byZ anchors best i t).1 := by
  have hshape : (refineStep sq byZ anchors best i t).1 =
      best.set i (bestLoop sq (best.eraseIdx i) anchors
        (refinePool byZ anchors best i)
        (best.getD i default,
          (scoreMaximin sq (best.getD i default) (best.eraseIdx i) anchors t).1,
          (scoreMaximin sq (best.getD i default) (best.eraseIdx i) anchors t).2)).1 := rfl
  rw [hshape]
  by_cases hi : i < best.length
  case neg =>
    rw [List.set_eq_of_length_le (Nat.le_of_not_lt hi)]
    exact hgood
  rcases bestLoop_mem sq (best.eraseIdx i) anchors (refinePool byZ anchors best i) _
    with hcand | hcand
  · rw [hcand]
    dsimp only
    rw [set_getD_self_eq best i hi]
    exact hgood
  · obtain ⟨g1, g2, g3, g4, g5, g6⟩ := hgood
    obtain ⟨hcbyz, hothers, hanchc⟩ := refinePool_conds byZ anchors best i _ hcand
    obtain ⟨hccand, hczk⟩ := (hbz _ _).mp hcbyz
    set cand := (bestLoop sq (best.eraseIdx i) anchors
        (refinePool byZ anchors best i)
        (best.getD i default,
          (scoreMaximin sq (best.getD i default) (best.eraseIdx i) anchors t).1,
          (scoreMaximin sq (best.getD i default) (best.eraseIdx i) anchors t).2)).1 with hc
    have hzkey : key01 cand.z = key01 (best.get ⟨i, hi⟩).z := by
      rw [hczk]
      congr 1
      rw [List.getD_eq_getElem?_getD, List.getElem?_eq_getElem hi, Option.getD_some]
      rfl
    refine ⟨?_, ?_, ?_, ?_, ?_, ?_⟩
    · intro p hp
      rcases List.mem_or_eq_of_mem_set hp with h | h
      · exact g1 p h
      · subst h
        exact hmargin _ hccand
    · rw [← set_append_right]
      refine pairwise_set_of _ _ _ g2 ?_
      intro j hj hji
      by_cases hja : j < anchors.length
      · have he : (anchors ++ best).get ⟨j, hj⟩ = anchors.get ⟨j, hja⟩ :=
          List.getElem_append_left hja
        rw [he]
        have hthis := hanchc _ (List.getElem_mem hja)
        exact ⟨hthis.1, fun hh => hthis.1 hh.symm⟩
      · have hjb : j - anchors.length < best.length := by
          rw [List.length_append] at hj
          omega
        have he : (anchors ++ best).get ⟨j, hj⟩ = best.get ⟨j - anchors.length, hjb⟩ :=
          List.getElem_append_right (Nat.le_of_not_lt hja)
        rw [he]
        have hji2 : j - anchors.length ≠ i := by omega
        have hthis := hothers _ hjb hji2
        exact ⟨hthis.1, fun hh => hthis.1 hh.symm⟩
    · rw [← set_append_right]
      refine pairwise_set_of _ _ _ g3 ?_
      intro j hj hji
      by_cases hja : j < anchors.length
      · have he : (anchors ++ best).get ⟨j, hj⟩ = anchors.get ⟨j, hja⟩ :=
          List.getElem_append_left hja
        rw [he]
        have hthis := hanchc _ (List.getElem_mem hja)
        exact ⟨hthis.2.1, fun hh => hthis.2.1 hh.symm⟩
      · have hjb : j - anchors.length < best.length := by
          rw [List.length_append] at hj
          omega
        have he : (anchors ++ best).get ⟨j, hj⟩ = best.get ⟨j - anchors.length, hjb⟩ :=
          List.getElem_append_right (Nat.le_of_not_lt hja)
        rw [he]
        have hji2 : j - anchors.length ≠ i := by omega
        have hthis := hothers _ hjb hji2
        exact ⟨hthis.2.1, fun hh => hthis.2.1 hh.symm⟩
    · refine pairwise_set_of _ _ _ g4 ?_
      intro j hj hji
      have hne : key01 (best.get ⟨j, hj⟩).z ≠ key01 (best.get ⟨i, hi⟩).z := by
        rw [List.pairwise_iff_getElem] at g4
        rcases Nat.lt_or_ge j i with h | h
        · exact g4 j i hj hi h
        · have hij : i < j := by omega
          exact fun hh => (g4 i j hi hj hij) hh.symm
      rw [hzkey]
      exact ⟨hne, fun hh => hne hh.symm⟩
    · intro r hr p hp
      rcases List.mem_or_eq_of_mem_set hp with h | h
      · exact g5 r hr p h
      · subst h
        exact (hanchc r hr).2.2
    · refine pairwise_set_of _ _ _ g6 ?_
      intro j hj hji
      refine ⟨(hothers j hj hji).2.2, ?_⟩
      rw [distSq3D_comm]
      exact (hothers j hj hji).2.2

/-- A whole refinement pass preserves the §3 invariants and the length. -/
theorem refinePass_good (sq : Q → Q) (byZ : ℤ → List Point) (anchors cands : List Point)
    (poly : List Point2) (hgt : Q)
    (hbz : ∀ (zk : ℤ) (c : Point), c ∈ byZ zk ↔ c ∈ cands ∧ key01 c.z = zk)
    (hmargin : ∀ c ∈ cands, cMarginOk poly hgt c) :
    ∀ (idxs : List Nat) (best : List Point) (t : Nat),
      goodChoice poly hgt anchors best →
      goodChoice poly hgt anchors (refinePass sq byZ anchors idxs (best, t)).1 ∧
        (refinePass sq byZ anchors idxs (best, t)).1.length = best.length := by
  intro idxs
  induction idxs with
  | nil => intro best t h; exact ⟨h, rfl⟩
  | cons i is ih =>
    intro best t h
    rw [refinePass]
    rcases hs : refineStep sq byZ anchors best i t with ⟨best2, t2⟩
    have hg2 : goodChoice poly hgt anchors best2 := by
      have h2 := refineStep_good sq byZ anchors cands poly hgt best i t hbz hmargin h
      rw [hs] at h2
      exact h2
    have hl2 : best2.length = best.length := by
      have h2 := refineStep_length sq byZ anchors best i t
      rw [hs] at h2
      exact h2
    obtain ⟨ha, hb⟩ := ih best2 t2 hg2
    exact ⟨ha, hb.trans hl2⟩

/-- `refinePoints` (two passes) preserves the §3 invariants and the
length. -/
theorem refinePoints_good (sq : Q → Q) (byZ : ℤ → List Point) (anchors cands : List Point)
    (poly : List Point2) (hgt : Q) (pts : List Point) (t : Nat)
    (hbz : ∀ (zk : ℤ) (c : Point), c ∈ byZ zk ↔ c ∈ cands ∧ key01 c.z = zk)
    (hmargin : ∀ c ∈ cands, cMarginOk poly hgt c)
    (hpg : goodChoice poly hgt anchors pts) :
    goodChoice poly hgt anchors (refinePoints sq byZ anchors pts t).1 ∧
      (refinePoints sq byZ anchors pts t).1.length = pts.length := by
  rw [refinePoints]
  rcases h1 : refinePass sq byZ anchors (List.range pts.length) (pts, t) with ⟨mid, t2⟩
  have hmid : goodChoice poly hgt anchors mid ∧ mid.length = pts.length := by
    have h2 := refinePass_good sq byZ anchors cands poly hgt hbz hmargin
      (List.range pts.length) pts t hpg
    rw [h1] at h2
    exact h2
  obtain ⟨ha, hb⟩ := refinePass_good sq byZ anchors cands poly hgt hbz hmargin
    (List.range pts.length) mid t2 hmid.1
  exact ⟨ha, hb.trans hmid.2⟩

/-- The initial committed X keys cover the active anchors. -/
theorem usedX0_covers (args : GenArgs) :
    ∀ a ∈ activeAnchors args, (usedX0 args).contains (key01 a.x) = true := by
  intro a ha
  unfold activeAnchors at ha
  unfold usedX0
  by_cases h1 : args.f1Active = true <;> by_cases h2 : args.f2Active = true <;>
    simp [h1, h2] at ha ⊢ <;> try rcases ha with rfl | rfl <;> try subst ha
  all_goals simp

/-- The initial committed Y keys cover the active anchors. -/
theorem usedY0_covers (args : GenArgs) :
    ∀ a ∈ activeAnchors args, (usedY0 args).contains (key01 a.y) = true := by
  intro a ha
  unfold activeAnchors at ha
  unfold usedY0
  by_cases h1 : args.f1Active = true <;> by_cases h2 : args.f2Active = true <;>
    simp [h1, h2] at ha ⊢ <;> try rcases ha with rfl | rfl <;> try subst ha
  all_goals simp

/-- The empty choice is invariant-clean whenever the anchors have pairwise
distinct keys. -/
theorem goodChoice_nil (poly : List Point2) (hgt : Q) (anchors : List Point)
    (hanch : anchorsKeyDistinct anchors) : goodChoice poly hgt anchors [] := by
  refine ⟨by simp, ?_, ?_, by simp, by simp, by simp⟩
  · rw [List.append_nil]
    exact hanch.imp (fun h => h.1)
  · rw [List.append_nil]
    exact hanch.imp (fun h => h.2)

/-- On a non-empty candidate list with exact `byZ` index, margin-clean
candidates and key-distinct anchors, a normal feasible return of the
post-guard generator has exactly five points satisfying the §3
invariants. -/
theorem generateRest_good (sq : Q → Q) (args : GenArgs) (seedOn : Bool) (t0 : Nat)
    (res : GenResult) (poly : List Point2) (hgt : Q)
    (hbz : ∀ (zk : ℤ) (c : Point), c ∈ args.byZ zk ↔ c ∈ args.candidates ∧ key01 c.z = zk)
    (hmargin : ∀ c ∈ args.candidates, cMarginOk poly hgt c)
    (hanch : anchorsKeyDistinct (activeAnchors args))
    (hne : args.candidates ≠ [])
    (hok : generateRest sq args seedOn t0 = .ok res) :
    res.points.length = 5 ∧ goodChoice poly hgt (activeAnchors args) res.points := by
  have hall : ∀ r : Nat, (shuffle args.candidates r).1 ≠ [] := by
    intro r hnil
    have hl := shuffle_length args.candidates r
    rw [hnil] at hl
    exact hne (List.eq_nil_of_length_eq_zero hl.symm)
  unfold generateRest at hok
  dsimp only at hok
  split at hok
  · rw [fallbackLoop_err _ _ (hall _)] at hok
    exact absurd hok (by simp)
  next hsol =>
    rw [Except.ok.injEq] at hok
    subst hok
    dsimp only
    have hgoodsol := dfs_good poly hgt
      ⟨sq, args.byZ, activeAnchors args,
        (match args.zOptionsByIdx with
          | some zs => (zs, t0)
          | none => zOptionsCompute seedOn args.zLevelsAll t0).1⟩ args.candidates hbz hmargin
      6 0 [] (usedX0 args) (usedY0 args) []
      ⟨0, [],
        (match args.zOptionsByIdx with
          | some zs => (zs, t0)
          | none => zOptionsCompute seedOn args.zLevelsAll t0).2⟩
      rfl (goodChoice_nil poly hgt _ hanch)
      (by
        intro a ha
        rw [List.append_nil] at ha
        exact usedX0_covers args a ha)
      (by
        intro a ha
        rw [List.append_nil] at ha
        exact usedY0_covers args a ha)
      (by intro a ha; exact absurd ha (List.not_mem_nil a))
      (by intro sol hsol2; exact absurd hsol2 (List.not_mem_nil sol))
    have hpickgood : ∀ pk ∈ ((dfs
        ⟨sq, args.byZ, activeAnchors args,
          (match args.zOptionsByIdx with
            | some zs => (zs, t0)
            | none => zOptionsCompute seedOn args.zLevelsAll t0).1⟩ 6 0 []
        (usedX0 args) (usedY0 args) []
        ⟨0, [],
          (match args.zOptionsByIdx with
            | some zs => (zs, t0)
            | none => zOptionsCompute seedOn args.zLevelsAll t0).2⟩).2.solutions),
        pk.length = 5 ∧ goodChoice poly hgt (activeAnchors args) pk := hgoodsol
    generalize hsols : (dfs
        ⟨sq, args.byZ, activeAnchors args,
          (match args.zOptionsByIdx with
            | some zs => (zs, t0)
            | none => zOptionsCompute seedOn args.zLevelsAll t0).1⟩ 6 0 []
        (usedX0 args) (usedY0 args) []
        ⟨0, [],
          (match args.zOptionsByIdx with
            | some zs => (zs, t0)
            | none => zOptionsCompute seedOn args.zLevelsAll t0).2⟩).2.solutions = sols
      at hpickgood hsol ⊢
    have hlen0 : 0 < sols.length := by
      rcases sols with _ | ⟨a, l⟩
      · exact absurd rfl hsol
      · simp
    have hidx : (if seedOn = true then 0 else args.genNonce % sols.length) < sols.length := by
      split
      · exact hlen0
      · exact Nat.mod_lt _ hlen0
    have hpick : sols.getD (if seedOn = true then 0 else args.genNonce % sols.length) [] =
        sols.get ⟨_, hidx⟩ := by
      rw [List.getD_eq_getElem?_getD, List.getElem?_eq_getElem hidx, Option.getD_some]
      rfl
    rw [hpick]
    obtain ⟨hplen, hpgood⟩ := hpickgood _ (List.getElem_mem hidx)
    obtain ⟨hrg, hrl⟩ := refinePoints_good sq args.byZ (activeAnchors args) args.candidates
      poly hgt _ _ hbz hmargin hpgood
    exact ⟨hrl.trans hplen, hrg⟩

/-- **C1 counterexample.**  Two active anchors at the same position (a
key-sharing anchor pair) satisfy every hypothesis of the claim — candidates
a full metre from walls, floor and ceiling of a large room, `byZ` exact —
yet the run returns `feasible = true` while the anchors-plus-points X keys
are not pairwise distinct: the claim's second invariant fails over the
anchor set itself, which the source never checks (`usedX` is seeded through
a `Set`, deduplicating silently). -/
theorem c1_counterexample :
    (∀ c ∈ argsDup.candidates, cMarginOk roomPoly roomHgt c) ∧
    (∀ (zk : ℤ) (c : Point), c ∈ argsDup.byZ zk ↔ c ∈ argsDup.candidates ∧ key01 c.z = zk) ∧
    ∃ res, generateBluePoints sqLin 0 (some [97]) argsDup = .ok res ∧
      res.feasible = true ∧
      ¬ (activeAnchors argsDup ++ res.points).Pairwise
          (fun p q => key01 p.x ≠ key01 q.x) := by
  refine ⟨by decide, ?_, ⟨[bp1, bp2, bp3, bp4, bp5], true⟩, by decide, rfl, by decide⟩
  intro zk c
  exact byZFive_exact zk c

/-- **C1 (amended).**  With the additional hypothesis that the active
anchors themselves have pairwise distinct rounded X and Y keys (the claim
omits it; see the counterexample), every feasible result has exactly five
points and satisfies all five §3 invariants — margins, X/Y key
distinctness across anchors and points, Z key distinctness, anchor-blue
distance at least 1.0 m, blue-blue distance at least 0.7 m — after the
refinement pass that is applied before returning. -/
theorem c1_invariants (sq : Q → Q) (now : Nat) (seed : Option (List Nat))
    (args : GenArgs) (poly : List Point2) (hgt : Q) (res : GenResult)
    (hmargin : ∀ c ∈ args.candidates, cMarginOk poly hgt c)
    (hbz : ∀ (zk : ℤ) (c : Point), c ∈ args.byZ zk ↔ c ∈ args.candidates ∧ key01 c.z = zk)
    (hanch : anchorsKeyDistinct (activeAnchors args))
    (hok : generateBluePoints sq now seed args = .ok res)
    (hfeas : res.feasible = true) :
    res.points.length = 5 ∧ goodChoice poly hgt (activeAnchors args) res.points := by
  by_cases hc : args.candidates.isEmpty = true
  · unfold generateBluePoints at hok
    rw [if_pos hc, Except.ok.injEq] at hok
    subst hok
    simp at hfeas
  · unfold generateBluePoints at hok
    rw [if_neg hc] at hok
    exact generateRest_good sq args _ _ res poly hgt hbz hmargin hanch
      (fun hnil => hc (by rw [hnil]; rfl)) hok

/-- Witness for C1 at the concrete two-anchor five-candidate scenario: the
returned five points satisfy every §3 invariant in the big square room. -/
theorem c1_invariants_witness :
    ([bp1, bp2, bp3, bp4, bp5] : List Point).length = 5 ∧
      goodChoice roomPoly roomHgt (activeAnchors argsSep) [bp1, bp2, bp3, bp4, bp5] :=
  c1_invariants sqLin 0 (some [97]) argsSep roomPoly roomHgt
    ⟨[bp1, bp2, bp3, bp4, bp5], true⟩ (by decide) byZFive_exact (by decide) (by decide) rfl
